import Mathlib

/-!
# protofudger: the schema-less protobuf decoder of `decode.go`

A shallow embedding of `decode`, `formatKey` and `parseBuffer` from `decode.go`,
followed by theorems about them.  (`main.go` holds an older copy of `decode`
that reads the two flags from globals and does not indent the extra lines of
`show_all`.)

Modelling conventions.

* A `[]byte` is a `List UInt8`.  The `bytes.Reader` over the input is the pair
  (number of bytes consumed, remaining bytes): `r.Seek(0, os.SEEK_CUR)` is the
  first component, and it never fails.
* `uint64` values are `Nat`s kept below `2^64`; `int64` values are `Int`s and
  `wrapInt64` is applied where Go's arithmetic could wrap.
* A `float64` is its IEEE-754 bit pattern; its absolute value is a `Mag`, which
  for a finite value is the exact magnitude counted in units of `2^-1074`.
* Library functions that produce text and are not part of the repository
  (`time.Time.String`, `%q`, `%f`) are fields of `Render`; every theorem holds
  for all of them.
* `binary.ReadUvarint` is the one of current Go releases: at most ten bytes are
  read and an end of input after the first byte is `io.ErrUnexpectedEOF`.
* Recursion is by fuel.  `decode` starts the loop with more fuel than the
  buffer has bytes; the result is `none` only if the fuel runs out.
-/

namespace Protofudger

/-! ## Errors -/

/-- The errors `decode` can return: those of `io` and `encoding/binary`, and the
ones built with `fmt.Errorf` in `decode.go`. -/
inductive DecodeError where
  | eof
  | unexpectedEOF
  | overflow
  | tagWasZero
  | invalidKey (k : Nat)
  | probablyInvalidKey (k : Nat)
  | invalidLength (l : Nat)
  | probablyInvalidLength (l : Nat)
  | notEnoughData
  | invalidType (t : Nat) (o : Int)
  deriving DecidableEq, Repr

/-- The text of `err.Error()`.  `pbType` has no `String` method and the format
of the last error has one verb for two operands, so `fmt` renders it with its
bad-verb and extra-operand markers. -/
def DecodeError.message : DecodeError → String
  | .eof => "EOF"
  | .unexpectedEOF => "unexpected EOF"
  | .overflow => "binary: varint overflows a 64-bit integer"
  | .tagWasZero => "tag was zero"
  | .invalidKey k => "invalid key " ++ toString k
  | .probablyInvalidKey k => "probably invalid key " ++ toString k
  | .invalidLength l => "invalid length " ++ toString l
  | .probablyInvalidLength l => "probably invalid length " ++ toString l
  | .notEnoughData => "couldn't read enough data"
  | .invalidType t o =>
      "invalid type %!s(main.pbType=" ++ toString t ++ ")%!(EXTRA int64=" ++ toString o ++ ")"

/-! ## Machine integers -/

/-- Reduction of an integer to the `int64` range (two's complement). -/
def wrapInt64 (x : Int) : Int := (x + 2 ^ 63) % 2 ^ 64 - 2 ^ 63

/-- Reduction of a natural number to the `uint64` range. -/
def wrapUint64 (x : Nat) : Nat := x % 2 ^ 64

/-- Constant `binary.MaxVarintLen64`. -/
def MaxVarintLen64 : Nat := 10

/-! ## `encoding/binary` varints -/

/-- Loop of `binary.ReadUvarint`: `i` is the loop counter, `x` the accumulated
value and `s` the shift.  The list is what is left in the reader. -/
def readUvarintLoop (i x s : Nat) : List UInt8 → Except DecodeError (Nat × List UInt8)
  | [] =>
    if MaxVarintLen64 ≤ i then .error .overflow
    else if 0 < i then .error .unexpectedEOF
    else .error .eof
  | b :: bs =>
    if MaxVarintLen64 ≤ i then .error .overflow
    else if b.toNat < 0x80 then
      if i = MaxVarintLen64 - 1 ∧ 1 < b.toNat then .error .overflow
      else .ok (x ||| wrapUint64 (b.toNat <<< s), bs)
    else readUvarintLoop (i + 1) (x ||| wrapUint64 ((b.toNat &&& 0x7f) <<< s)) (s + 7) bs

/-- Function `binary.ReadUvarint` on the remaining bytes of the reader: the value
read and the bytes left after it. -/
def readUvarint (bs : List UInt8) : Except DecodeError (Nat × List UInt8) :=
  readUvarintLoop 0 0 0 bs

/-- Loop of `binary.PutUvarint`, structural on a bound for the number of bytes. -/
def putUvarintLoop : Nat → Nat → List UInt8
  | 0, x => [UInt8.ofNat x]
  | fuel + 1, x =>
    if 0x80 ≤ x then UInt8.ofNat (x % 256 ||| 0x80) :: putUvarintLoop fuel (x >>> 7)
    else [UInt8.ofNat x]

/-- Function `binary.PutUvarint`: the canonical base-128 encoding of a `uint64`. -/
def putUvarint (x : Nat) : List UInt8 := putUvarintLoop MaxVarintLen64 x

/-! ## `formatKey` -/

/-- Function `formatKey` of `decode.go`. -/
def formatKey (k : Nat) (o : Int) (showOffsets : Bool) : String :=
  if showOffsets then toString k ++ " @ " ++ toString o
  else toString k

/-! ## Text produced by the Go library -/

/-- Text-producing functions of the Go library that `decode` calls and that are
not part of the repository: `time.Unix(sec, 0).String()` (it depends on the local
time zone), the `%q` rendering of a string, and the `%f` rendering of a `float64`
and of a `float32`, each given by its bit pattern. -/
structure Render where
  unixTime : Int → String
  quote : List UInt8 → String
  float64 : Nat → String
  float32 : Nat → String

/-- One lowercase hexadecimal digit. -/
def hexDigit (n : Nat) : Char := "0123456789abcdef".toList.getD n '0'

/-- Function `hex.EncodeToString`. -/
def hexEncode (v : List UInt8) : String :=
  String.mk (v.flatMap fun b => [hexDigit (b.toNat / 16), hexDigit (b.toNat % 16)])

/-- Whether a byte lies within the given bounds, both included. -/
def inRange (lo hi : Nat) (b : UInt8) : Bool := decide (lo ≤ b.toNat) && decide (b.toNat ≤ hi)

/-- Function `utf8.ValidString`, by bounded iteration over the bytes: ASCII, then
the two-, three- and four-byte forms with the accept ranges of `unicode/utf8`
(no overlong forms, no surrogates, nothing above U+10FFFF). -/
def validUTF8Loop : Nat → List UInt8 → Bool
  | 0, bs => bs.isEmpty
  | _ + 1, [] => true
  | fuel + 1, b :: bs =>
    if b.toNat < 0x80 then validUTF8Loop fuel bs
    else if inRange 0xC2 0xDF b then
      match bs with
      | c1 :: r => inRange 0x80 0xBF c1 && validUTF8Loop fuel r
      | _ => false
    else if inRange 0xE0 0xEF b then
      match bs with
      | c1 :: c2 :: r =>
        inRange (if b.toNat = 0xE0 then 0xA0 else 0x80) (if b.toNat = 0xED then 0x9F else 0xBF) c1
          && inRange 0x80 0xBF c2 && validUTF8Loop fuel r
      | _ => false
    else if inRange 0xF0 0xF4 b then
      match bs with
      | c1 :: c2 :: c3 :: r =>
        inRange (if b.toNat = 0xF0 then 0x90 else 0x80) (if b.toNat = 0xF4 then 0x8F else 0xBF) c1
          && inRange 0x80 0xBF c2 && inRange 0x80 0xBF c3 && validUTF8Loop fuel r
      | _ => false
    else false

/-- Function `utf8.ValidString` applied to `string(v)`. -/
def validUTF8 (v : List UInt8) : Bool := validUTF8Loop v.length v

/-! ## Floating point magnitudes -/

/-- Absolute value of a `float64`: a finite magnitude `u * 2^-1074`, infinity, or
not-a-number. -/
inductive Mag where
  | fin (u : Nat)
  | inf
  | nan
  deriving DecidableEq, Repr

/-- Go's `x < y` on two absolute values: false whenever one is not a number. -/
def Mag.lt : Mag → Mag → Bool
  | .fin a, .fin b => decide (a < b)
  | .fin _, .inf => true
  | _, _ => false

/-- Result of `math.Abs` on the `float64` with the given 64-bit pattern. -/
def absFloat64 (bits : Nat) : Mag :=
  let e := bits / 2 ^ 52 % 2 ^ 11
  let m := bits % 2 ^ 52
  if e = 2047 then (if m = 0 then .inf else .nan)
  else if e = 0 then .fin m
  else .fin ((2 ^ 52 + m) * 2 ^ (e - 1))

/-- Result of `math.Abs(float64(f))` for the `float32` with the given 32-bit
pattern; the conversion to `float64` is exact. -/
def absFloat32 (bits : Nat) : Mag :=
  let e := bits / 2 ^ 23 % 2 ^ 8
  let m := bits % 2 ^ 23
  if e = 255 then (if m = 0 then .inf else .nan)
  else if e = 0 then .fin (m * 2 ^ 925)
  else .fin ((2 ^ 23 + m) * 2 ^ (e + 924))

/-- The number of low bits that `n` loses when it is cut to 53 significant bits:
the least `sh` from the start value on with `n / 2^sh < 2^53`, searched over as
many steps as the first argument allows. -/
def dropBits (n : Nat) : Nat → Nat → Nat
  | 0, sh => sh
  | steps + 1, sh => if n / 2 ^ sh < 2 ^ 53 then sh else dropBits n steps (sh + 1)

/-- Rounding of a natural number to 53 significant bits, to nearest with ties to
even: the integer value of `float64(n)` for an integer `n` of at most 64 bits. -/
def roundTo53 (n : Nat) : Nat :=
  let sh := dropBits n 11 0
  if sh = 0 then n
  else
    let q := n / 2 ^ sh
    let r := n % 2 ^ sh
    let half := 2 ^ (sh - 1)
    if half < r ∨ (r = half ∧ q % 2 = 1) then (q + 1) * 2 ^ sh else q * 2 ^ sh

/-- Result of `math.Abs(float64(x))` for an integer `x` of any 64-bit or 32-bit
integer type. -/
def absOfInt (x : Int) : Mag := .fin (roundTo53 x.natAbs * 2 ^ 1074)

/-- Constant `math.MaxFloat64`. -/
def maxFloat64 : Mag := absFloat64 0x7FEFFFFFFFFFFFFF

/-- The constant `0.01` as a `float64`: the nearest one has the bit pattern
`0x3F847AE147AE147B`. -/
def pointZeroOne : Mag := absFloat64 0x3F847AE147AE147B

/-! ## Fixed-width readings -/

/-- Value of the bytes read as a big-endian unsigned integer (`binary.BigEndian`). -/
def beUint (v : List UInt8) : Nat := v.foldl (fun acc b => acc * 256 + b.toNat) 0

/-- Value of the bytes read as a little-endian unsigned integer
(`binary.LittleEndian`). -/
def leUint (v : List UInt8) : Nat := v.foldr (fun b acc => b.toNat + 256 * acc) 0

/-- The `int64` with the given 64-bit pattern. -/
def toInt64 (u : Nat) : Int := if u < 2 ^ 63 then (u : Int) else (u : Int) - 2 ^ 64

/-- The `int32` with the given 32-bit pattern. -/
def toInt32 (u : Nat) : Int := if u < 2 ^ 31 then (u : Int) else (u : Int) - 2 ^ 32

/-- What `r.Read(v)` leaves in a fresh buffer `v` of `n` zero bytes: the bytes that
were available, at most `n` of them, followed by the zeros not overwritten. -/
def readInto (n : Nat) (rest : List UInt8) : List UInt8 :=
  rest.take n ++ List.replicate (n - (rest.take n).length) 0

/-- The running best candidate of the fixed-width handlers: `closestValue`,
`closestName` and `closestText`. -/
structure Closest where
  value : Mag
  name : String
  text : String
  deriving DecidableEq, Repr

/-- Initial values of `closestValue`, `closestName`, `closestText`. -/
def Closest.init : Closest := ⟨maxFloat64, "none", ""⟩

/-- One candidate test, `if a := math.Abs(..); a > 0.01 && a < closestValue`. -/
def Closest.consider (c : Closest) (a : Mag) (name text : String) : Closest :=
  if Mag.lt pointZeroOne a && Mag.lt a c.value then ⟨a, name, text⟩ else c

/-- The candidate tests of the `type64Bit` case on the 8 bytes `v`, in source
order. -/
def closest64 (R : Render) (v : List UInt8) : Closest :=
  let c := Closest.init
  let c := c.consider (absFloat64 (beUint v)) "doublebe" (R.float64 (beUint v))
  let c := c.consider (absFloat64 (leUint v)) "doublele" (R.float64 (leUint v))
  let c := c.consider (absOfInt (toInt64 (beUint v))) "int64be" (toString (toInt64 (beUint v)))
  let c := c.consider (absOfInt (toInt64 (leUint v))) "int64le" (toString (toInt64 (leUint v)))
  let c := c.consider (absOfInt (beUint v)) "uint64" (toString (beUint v))
  let c := c.consider (absOfInt (leUint v)) "uint64" (toString (leUint v))
  c

/-- The slice `s` of the `type64Bit` case: one line per reading. -/
def all64 (R : Render) (v : List UInt8) : List String :=
  [ "  (doublebe) " ++ R.float64 (beUint v),
    "  (doublele) " ++ R.float64 (leUint v),
    "  (int64be) " ++ toString (toInt64 (beUint v)),
    "  (int64le) " ++ toString (toInt64 (leUint v)),
    "  (uint64be) " ++ toString (beUint v),
    "  (uint64le) " ++ toString (leUint v) ]

/-- Rendering by `fmt` of an integer under the verb `%f`, which is not defined for
integers: the bad-verb form with the Go type name. -/
def badVerbF (ty : String) (x : Int) : String := "%!f(" ++ ty ++ "=" ++ toString x ++ ")"

/-- The candidate tests of the `type32Bit` case on the 4 bytes `v`, in source
order. -/
def closest32 (R : Render) (v : List UInt8) : Closest :=
  let c := Closest.init
  let c := c.consider (absFloat32 (beUint v)) "floatbe" (R.float32 (beUint v))
  let c := c.consider (absFloat32 (leUint v)) "floatle" (R.float32 (leUint v))
  let c := c.consider (absOfInt (toInt32 (beUint v))) "int32be" (badVerbF "int32" (toInt32 (beUint v)))
  let c := c.consider (absOfInt (toInt32 (leUint v))) "int32le" (badVerbF "int32" (toInt32 (leUint v)))
  let c := c.consider (absOfInt (beUint v)) "uin32be" (badVerbF "uint32" (beUint v))
  let c := c.consider (absOfInt (leUint v)) "uin32le" (badVerbF "uint32" (leUint v))
  c

/-- The slice `s` of the `type32Bit` case: one line per reading. -/
def all32 (R : Render) (v : List UInt8) : List String :=
  [ "  (floatbe) " ++ R.float32 (beUint v),
    "  (floatle) " ++ R.float32 (leUint v),
    "  (int32be) " ++ toString (toInt32 (beUint v)),
    "  (int32le) " ++ toString (toInt32 (leUint v)),
    "  (uin32be) " ++ toString (beUint v),
    "  (uin32le) " ++ toString (leUint v) ]

/-- Lines appended by a fixed-width case: the primary line and, under `showAll`,
every line of `s` behind `len(p)` spaces. -/
def fixedLines (p : String) (c : Closest) (s : List String) (showAll : Bool) : List String :=
  (p ++ ": (" ++ c.name ++ ") " ++ c.text) ::
    (if showAll then s.map fun e => String.mk (List.replicate p.utf8ByteSize ' ') ++ e else [])

/-! ## The varint case -/

/-- Lines appended by the `typeNumber` case for the value `v`: the inner `switch`
and the `if showAll` after it. -/
def varintLines (R : Render) (p : String) (v : Nat) (showAll : Bool) : List String :=
  (if 1400000000000 < v ∧ v < 1500000000000 then
      [p ++ ": (varint, microseconds) " ++ R.unixTime (wrapInt64 (v / 1000 : Nat))]
    else if 1400000000 < v ∧ v < 1500000000 then
      [p ++ ": (varint, milliseconds) " ++ R.unixTime (wrapInt64 (v : Nat))]
    else if wrapUint64 v = v then
      [p ++ ": (varint) " ++ toString v]
    else if !showAll then
      [p ++ ": (varint) " ++ toString v ++ " OR " ++ toString (wrapUint64 v)]
    else [])
  ++ (if showAll then [p ++ ": (varint) " ++ toString v ++ " OR " ++ toString (wrapUint64 v)] else [])

/-! ## `decode` -/

/-- What `decode` returns: the field count `n`, the lines `a` and the error. -/
structure DecodeResult where
  n : Nat
  lines : List String
  err : Option DecodeError
  deriving DecidableEq, Repr

/-- Lines appended by the `typeBytes` case once the payload `v` is read: a brace
block when the nested decode `m` has no error, else the string or bytes line. -/
def bytesLines (R : Render) (p : String) (v : List UInt8) (m : DecodeResult) : List String :=
  if m.err = none then
    [p ++ ": \x7b"] ++ m.lines.map (fun s => "  " ++ s) ++ ["\x7d"]
  else if validUTF8 v then
    [p ++ ": (string) " ++ R.quote v]
  else
    [p ++ ": (bytes) " ++ hexEncode v]

/-- The `for` loop of `decode`.  `pos` is the reader position, `rest` the bytes
from there on, `n` and `a` the count and the lines so far. -/
def decodeLoop (R : Render) (showAll showOffsets : Bool) :
    Nat → Int → Int → Nat → List UInt8 → Nat → List String → Option DecodeResult
  | 0, _, _, _, _, _, _ => none
  | fuel + 1, offset, depth, pos, rest, n, a =>
    let o := wrapInt64 ((pos : Int) + offset)
    match readUvarint rest with
    | .error e => if e = .eof then some ⟨n, a, none⟩ else some ⟨n, a, some e⟩
    | .ok (i, r1) =>
      if i = 0 then some ⟨n, a, some .tagWasZero⟩
      else
        let t := i &&& 0x03
        let k := i >>> 3
        if k < 0 then some ⟨n, a, some (.invalidKey k)⟩
        else if k > 1024 then some ⟨n, a, some (.probablyInvalidKey k)⟩
        else if t = 0 then
          match readUvarint r1 with
          | .error e => some ⟨n, a, some e⟩
          | .ok (v, r2) =>
            decodeLoop R showAll showOffsets fuel offset depth (pos + (rest.length - r2.length)) r2
              (n + 1) (a ++ varintLines R (formatKey k o showOffsets) v showAll)
        else if t = 1 then
          if r1.isEmpty then some ⟨n, a, some .eof⟩
          else
            let v := readInto 8 r1
            let r2 := r1.drop 8
            decodeLoop R showAll showOffsets fuel offset depth (pos + (rest.length - r2.length)) r2
              (n + 1)
              (a ++ fixedLines (formatKey k o showOffsets) (closest64 R v) (all64 R v) showAll)
        else if t = 2 then
          match readUvarint r1 with
          | .error e => some ⟨n, a, some e⟩
          | .ok (l, r2) =>
            if l < 0 then some ⟨n, a, some (.invalidLength l)⟩
            else if l > 1024 * 32 then some ⟨n, a, some (.probablyInvalidLength l)⟩
            else
              let o2 := wrapInt64 (((pos + (rest.length - r2.length) : Nat) : Int) + offset)
              if r2.length < l then some ⟨n, a, some .notEnoughData⟩
              else
                let v := r2.take l
                let r3 := r2.drop l
                match decodeLoop R showAll showOffsets fuel o2 (depth + 1) 0 v 0 [] with
                | none => none
                | some m =>
                  decodeLoop R showAll showOffsets fuel offset depth
                    (pos + (rest.length - r3.length)) r3 (n + 1)
                    (a ++ bytesLines R (formatKey k o2 showOffsets) v m)
        else if t = 5 then
          if r1.isEmpty then some ⟨n, a, some .eof⟩
          else
            let v := readInto 4 r1
            let r2 := r1.drop 4
            decodeLoop R showAll showOffsets fuel offset depth (pos + (rest.length - r2.length)) r2
              (n + 1)
              (a ++ fixedLines (formatKey k o showOffsets) (closest32 R v) (all32 R v) showAll)
        else some ⟨n, a, some (.invalidType t o)⟩

/-- Function `decode` of `decode.go`.  The loop gets one unit of fuel more than
the buffer has bytes, which it never uses up. -/
def decode (R : Render) (input : List UInt8) (offset : Int) (depth : Int)
    (showAll showOffsets : Bool) : Option DecodeResult :=
  decodeLoop R showAll showOffsets (input.length + 1) offset depth 0 input 0 []

/-- Function `parseBuffer` of `decode.go`: the lines (`none` for Go's `nil`
slice) and the error. -/
def parseBuffer (R : Render) (d : List UInt8) (showAll showOffsets : Bool) :
    Option (Option (List String) × Option DecodeError) :=
  match decode R d 0 0 showAll showOffsets with
  | none => none
  | some r =>
    if 0 < r.n ∧ r.err = none then
      some (some (["decoded " ++ toString r.n ++ " fields", ""] ++ r.lines), none)
    else some (none, r.err)

/-! ## Definitions used to state and prove the theorems -/

/-- What one iteration of the loop of `decode` does, apart from the recursive
calls: it returns, or it appends lines for a varint or fixed-width field and
goes on with `r2`, or it has read the payload `v` of a length-delimited field
whose tag and length took `hdr` bytes, and goes on with `r3` after decoding `v`. -/
inductive Step where
  | ret (err : Option DecodeError)
  | flat (lines : List String) (r2 : List UInt8)
  | sub (k : Nat) (v r3 : List UInt8) (hdr : Nat)

/-- The iteration of the loop of `decode` at absolute offset `base` on the
remaining bytes `rest`, as a `Step`. -/
def step (R : Render) (showAll showOffsets : Bool) (base : Int) (rest : List UInt8) : Step :=
  let o := wrapInt64 base
  match readUvarint rest with
  | .error e => if e = .eof then .ret none else .ret (some e)
  | .ok (i, r1) =>
    if i = 0 then .ret (some .tagWasZero)
    else
      let t := i &&& 0x03
      let k := i >>> 3
      if k > 1024 then .ret (some (.probablyInvalidKey k))
      else if t = 0 then
        match readUvarint r1 with
        | .error e => .ret (some e)
        | .ok (v, r2) => .flat (varintLines R (formatKey k o showOffsets) v showAll) r2
      else if t = 1 then
        if r1.isEmpty then .ret (some .eof)
        else
          .flat (fixedLines (formatKey k o showOffsets) (closest64 R (readInto 8 r1))
            (all64 R (readInto 8 r1)) showAll) (r1.drop 8)
      else if t = 2 then
        match readUvarint r1 with
        | .error e => .ret (some e)
        | .ok (l, r2) =>
          if l > 1024 * 32 then .ret (some (.probablyInvalidLength l))
          else if r2.length < l then .ret (some .notEnoughData)
          else .sub k (r2.take l) (r2.drop l) (rest.length - r2.length)
      else .ret (some (.invalidType t o))

/-- Continuation of the loop of `decode` after a `Step`. -/
def afterStep (R : Render) (showAll showOffsets : Bool) (fuel : Nat) (offset depth : Int)
    (pos : Nat) (rest : List UInt8) (n : Nat) (a : List String) : Step → Option DecodeResult
  | .ret e => some ⟨n, a, e⟩
  | .flat L r2 =>
    decodeLoop R showAll showOffsets fuel offset depth (pos + (rest.length - r2.length)) r2
      (n + 1) (a ++ L)
  | .sub k v r3 hdr =>
    match decodeLoop R showAll showOffsets fuel (wrapInt64 (((pos + hdr : Nat) : Int) + offset))
        (depth + 1) 0 v 0 [] with
    | none => none
    | some m =>
      decodeLoop R showAll showOffsets fuel offset depth (pos + (rest.length - r3.length)) r3
        (n + 1)
        (a ++ bytesLines R (formatKey k (wrapInt64 (((pos + hdr : Nat) : Int) + offset)) showOffsets) v m)

/-- A result placed behind `n` fields and the lines `a` that came before it. -/
def DecodeResult.after (n : Nat) (a : List String) (r : DecodeResult) : DecodeResult :=
  ⟨n + r.n, a ++ r.lines, r.err⟩

def Render.sample : Render :=
  ⟨fun s => "unix(" ++ toString s ++ ")", fun v => "\"" ++ hexEncode v ++ "\"",
    fun b => "float64bits(" ++ toString b ++ ")", fun b => "float32bits(" ++ toString b ++ ")"⟩

/-- One candidate reading of a fixed-width payload: the magnitude that is
compared, the label and the text. -/
structure Reading where
  mag : Mag
  name : String
  text : String
  deriving DecidableEq, Repr

/-- The six readings of the `type64Bit` case in evaluation order, each with the
magnitude the code compares: `math.Abs` of the value as a `float64`. -/
def readings64 (R : Render) (v : List UInt8) : List Reading :=
  [ ⟨absFloat64 (beUint v), "doublebe", R.float64 (beUint v)⟩,
    ⟨absFloat64 (leUint v), "doublele", R.float64 (leUint v)⟩,
    ⟨absOfInt (toInt64 (beUint v)), "int64be", toString (toInt64 (beUint v))⟩,
    ⟨absOfInt (toInt64 (leUint v)), "int64le", toString (toInt64 (leUint v))⟩,
    ⟨absOfInt (beUint v), "uint64", toString (beUint v)⟩,
    ⟨absOfInt (leUint v), "uint64", toString (leUint v)⟩ ]

/-- The exact absolute value of an integer, not rounded to a `float64`. -/
def exactAbsOfInt (x : Int) : Mag := .fin (x.natAbs * 2 ^ 1074)

/-- The six readings of an 8-byte payload in evaluation order, each with its
exact absolute value. -/
def exactReadings64 (R : Render) (v : List UInt8) : List Reading :=
  [ ⟨absFloat64 (beUint v), "doublebe", R.float64 (beUint v)⟩,
    ⟨absFloat64 (leUint v), "doublele", R.float64 (leUint v)⟩,
    ⟨exactAbsOfInt (toInt64 (beUint v)), "int64be", toString (toInt64 (beUint v))⟩,
    ⟨exactAbsOfInt (toInt64 (leUint v)), "int64le", toString (toInt64 (leUint v))⟩,
    ⟨exactAbsOfInt (beUint v), "uint64", toString (beUint v)⟩,
    ⟨exactAbsOfInt (leUint v), "uint64", toString (leUint v)⟩ ]

/-- Whether the magnitude of a reading exceeds `0.01`. -/
def Reading.isAbove (r : Reading) : Bool := Mag.lt pointZeroOne r.mag

/-- The selection rule in the words of the specification: the reading at index
`i` exceeds `0.01`, no reading that exceeds `0.01` has a smaller magnitude, and
every earlier reading that exceeds `0.01` has a larger one. -/
def specSelected (rs : List Reading) (i : Nat) : Bool :=
  match rs[i]? with
  | none => false
  | some r =>
    r.isAbove && rs.all (fun q => !q.isAbove || !Mag.lt q.mag r.mag)
      && (rs.take i).all (fun q => !q.isAbove || Mag.lt r.mag q.mag)

/-- The candidate tests run over a list of readings. -/
def pick (c : Closest) (rs : List Reading) : Closest :=
  rs.foldl (fun c r => c.consider r.mag r.name r.text) c

/-- The lines of `decode` on `rest` at absolute offset `base`, each paired with
the number of brace blocks that enclose it, and the error.  It follows the loop
of `decode` iteration by iteration: the lines of a nested decode that are put
into a brace block get one level more, every other line of the field is at
level 0. -/
def annotLoop (R : Render) (showAll showOffsets : Bool) :
    Nat → Int → List UInt8 → Option (List (Nat × String) × Option DecodeError)
  | 0, _, _ => none
  | fuel + 1, base, rest =>
    match step R showAll showOffsets base rest with
    | .ret e => some ([], e)
    | .flat L r2 =>
      match annotLoop R showAll showOffsets fuel (base + ((rest.length - r2.length : Nat) : Int)) r2 with
      | none => none
      | some (A, e) => some (L.map (fun s => (0, s)) ++ A, e)
    | .sub k v r3 hdr =>
      match annotLoop R showAll showOffsets fuel (wrapInt64 (base + (hdr : Int))) v with
      | none => none
      | some (Av, ev) =>
        match annotLoop R showAll showOffsets fuel (base + ((hdr + v.length : Nat) : Int)) r3 with
        | none => none
        | some (A, e) =>
          some ((if ev = none then
              [(0, formatKey k (wrapInt64 (base + (hdr : Int))) showOffsets ++ ": \x7b")]
                ++ Av.map (fun x => (x.1 + 1, "  " ++ x.2)) ++ [(0, "\x7d")]
            else
              (bytesLines R (formatKey k (wrapInt64 (base + (hdr : Int))) showOffsets) v
                ⟨0, [], ev⟩).map (fun s => (0, s))) ++ A, e)

/-! ## Theorems -/

set_option maxRecDepth 100000
set_option exponentiation.threshold 4000

theorem byte_or_high : ∀ a < 256, a ||| 0x80 = 128 + a % 128 := by decide

theorem byte_and_low : ∀ a < 256, a &&& 0x7f = a % 128 := by decide

theorem toNat_ofNat_lt {y : Nat} (h : y < 256) : (UInt8.ofNat y).toNat = y := by
  simp [UInt8.toNat, UInt8.ofNat, Fin.ofNat]; omega

theorem add_shift_eq_or {acc y s : Nat} (h : acc < 2 ^ s) : acc ||| y <<< s = acc + y * 2 ^ s := by
  rw [Nat.shiftLeft_eq, Nat.lor_comm, Nat.mul_comm, ← Nat.mul_add_lt_is_or h]
  omega

/-- Reading back what `putUvarintLoop` wrote, from loop state `i`. -/
theorem readUvarintLoop_put (rest : List UInt8) :
    ∀ (fuel i acc y : Nat), i ≤ 9 → 9 ≤ fuel + i → acc < 2 ^ (7 * i) → y < 2 ^ (64 - 7 * i) →
      readUvarintLoop i acc (7 * i) (putUvarintLoop fuel y ++ rest)
        = .ok (acc + y * 2 ^ (7 * i), rest) := by
  intro fuel
  induction fuel with
  | zero =>
    intro i acc y hi hf hacc hy
    have hi9 : i = 9 := by omega
    subst hi9
    have hy2 : y < 2 := by simpa using hy
    have hb : (UInt8.ofNat y).toNat = y := toNat_ofNat_lt (by omega)
    simp only [putUvarintLoop, List.singleton_append, readUvarintLoop, MaxVarintLen64, hb]
    have e1 : ¬ (10 ≤ 9) := by omega
    have e2 : y < 0x80 := by omega
    have e3 : ¬ (9 = 10 - 1 ∧ 1 < y) := by omega
    have e4 : wrapUint64 (y <<< (7 * 9)) = y <<< (7 * 9) := by
      unfold wrapUint64
      apply Nat.mod_eq_of_lt
      rw [Nat.shiftLeft_eq]
      have : y * 2 ^ (7 * 9) < 2 * 2 ^ (7 * 9) := Nat.mul_lt_mul_of_pos_right hy2 (by positivity)
      norm_num at this ⊢; omega
    have e3b : ¬ (1 < y) := by omega
    simp [e2, e3b, e4, add_shift_eq_or hacc]
  | succ fuel ih =>
    intro i acc y hi hf hacc hy
    simp only [putUvarintLoop]
    by_cases hbig : 0x80 ≤ y
    · have hi8 : i ≤ 8 := by
        by_contra hc
        have hi9 : i = 9 := by omega
        subst hi9
        have : y < 2 := by simpa using hy
        omega
      have hlt : y % 256 < 256 := Nat.mod_lt _ (by norm_num)
      have hb : (UInt8.ofNat (y % 256 ||| 0x80)).toNat = 128 + y % 128 := by
        rw [byte_or_high _ hlt, toNat_ofNat_lt (by omega)]; omega
      have hm : (128 + y % 128) &&& 0x7f = y % 128 := by
        rw [byte_and_low _ (by omega)]; omega
      simp only [hbig, if_true, List.cons_append, readUvarintLoop, MaxVarintLen64, hb, hm]
      have e1 : ¬ (10 ≤ i) := by omega
      have e2 : ¬ (128 + y % 128 < 0x80) := by omega
      have hs : (y % 128) * 2 ^ (7 * i) < 2 ^ (7 * (i + 1)) := by
        have : (y % 128) * 2 ^ (7 * i) < 128 * 2 ^ (7 * i) :=
          Nat.mul_lt_mul_of_pos_right (Nat.mod_lt _ (by norm_num)) (by positivity)
        have e : 2 ^ (7 * (i + 1)) = 128 * 2 ^ (7 * i) := by
          rw [Nat.mul_add, Nat.pow_add]; norm_num [Nat.mul_comm]
        omega
      have hle : 2 ^ (7 * (i + 1)) ≤ 2 ^ 64 := Nat.pow_le_pow_right (by norm_num) (by omega)
      have e4 : wrapUint64 ((y % 128) <<< (7 * i)) = (y % 128) * 2 ^ (7 * i) := by
        unfold wrapUint64
        rw [Nat.shiftLeft_eq]
        exact Nat.mod_eq_of_lt (by omega)
      have e5 : acc ||| (y % 128) * 2 ^ (7 * i) = acc + (y % 128) * 2 ^ (7 * i) := by
        have h5 := add_shift_eq_or (y := y % 128) hacc
        rwa [Nat.shiftLeft_eq] at h5
      simp only [e1, e2, if_false, e4, e5]
      have hacc2 : acc + (y % 128) * 2 ^ (7 * i) < 2 ^ (7 * (i + 1)) := by
        have e : 2 ^ (7 * (i + 1)) = 128 * 2 ^ (7 * i) := by
          rw [Nat.mul_add, Nat.pow_add]; norm_num [Nat.mul_comm]
        have h1 : y % 128 ≤ 127 := by omega
        have h2 : (y % 128) * 2 ^ (7 * i) ≤ 127 * 2 ^ (7 * i) := Nat.mul_le_mul_right _ h1
        omega
      have hy2 : y >>> 7 < 2 ^ (64 - 7 * (i + 1)) := by
        rw [Nat.shiftRight_eq_div_pow]
        apply Nat.div_lt_of_lt_mul
        have : 2 ^ 7 * 2 ^ (64 - 7 * (i + 1)) = 2 ^ (64 - 7 * i) := by
          rw [← Nat.pow_add]; congr 1; omega
        omega
      have key := ih (i + 1) (acc + (y % 128) * 2 ^ (7 * i)) (y >>> 7) (by omega) (by omega) hacc2 hy2
      have es : 7 * i + 7 = 7 * (i + 1) := by omega
      rw [es, key]
      congr 2
      rw [Nat.shiftRight_eq_div_pow]
      have e : 2 ^ (7 * (i + 1)) = 2 ^ (7 * i) * 2 ^ 7 := by
        rw [Nat.mul_add, Nat.pow_add]
      rw [e]
      have : y = 128 * (y / 128) + y % 128 := (Nat.div_add_mod y 128).symm
      generalize 2 ^ (7 * i) = P at *
      norm_num
      nlinarith [this]
    · have hy128 : y < 128 := by omega
      have hb : (UInt8.ofNat y).toNat = y := toNat_ofNat_lt (by omega)
      simp only [hbig, if_false, List.singleton_append, readUvarintLoop, MaxVarintLen64, hb]
      have e1 : ¬ (10 ≤ i) := by omega
      have e2 : y < 0x80 := by omega
      have e3 : ¬ (i = 10 - 1 ∧ 1 < y) := by
        rintro ⟨h9, h1⟩
        have hi9 : i = 9 := by omega
        subst hi9
        have : y < 2 := by simpa using hy
        omega
      have hle : y * 2 ^ (7 * i) < 2 ^ 64 := by
        have : y * 2 ^ (7 * i) < 2 ^ (64 - 7 * i) * 2 ^ (7 * i) :=
          Nat.mul_lt_mul_of_pos_right hy (by positivity)
        rw [← Nat.pow_add] at this
        have e : 64 - 7 * i + 7 * i = 64 := by omega
        rw [e] at this; exact this
      have e4 : wrapUint64 (y <<< (7 * i)) = y <<< (7 * i) := by
        unfold wrapUint64
        rw [Nat.shiftLeft_eq]
        exact Nat.mod_eq_of_lt hle
      simp only [e1, e2, e3, e4, if_true, if_false, add_shift_eq_or hacc]

/-- Reading a canonical encoding gives the value back and leaves what follows it. -/
theorem readUvarint_putUvarint (x : Nat) (hx : x < 2 ^ 64) (rest : List UInt8) :
    readUvarint (putUvarint x ++ rest) = .ok (x, rest) := by
  have := readUvarintLoop_put rest MaxVarintLen64 0 0 x (by omega) (by simp [MaxVarintLen64])
    (by simp) (by simpa using hx)
  simpa [readUvarint, putUvarint] using this

/-- A successful `readUvarintLoop` leaves a strictly shorter list. -/
theorem readUvarintLoop_length (bs : List UInt8) :
    ∀ (i x s v : Nat) (r : List UInt8),
      readUvarintLoop i x s bs = .ok (v, r) → r.length < bs.length := by
  induction bs with
  | nil =>
    intro i x s v r h
    simp only [readUvarintLoop] at h
    split_ifs at h
  | cons b bs ih =>
    intro i x s v r h
    simp only [readUvarintLoop] at h
    split_ifs at h with h1 h2 h3
    · simp only [Except.ok.injEq, Prod.mk.injEq] at h
      rw [← h.2]; simp
    · have := ih _ _ _ _ _ h
      simp only [List.length_cons]; omega

theorem readUvarint_length {bs : List UInt8} {v : Nat} {r : List UInt8}
    (h : readUvarint bs = .ok (v, r)) : r.length < bs.length :=
  readUvarintLoop_length bs 0 0 0 v r h

theorem land3_ne_five (i : Nat) : i &&& 0x03 ≠ 5 := by
  have h : i &&& 3 < 2 ^ 2 := Nat.and_lt_two_pow i (by norm_num)
  omega

theorem decodeLoop_succ (R : Render) (showAll showOffsets : Bool) (fuel : Nat)
    (offset depth : Int) (pos : Nat) (rest : List UInt8) (n : Nat) (a : List String) :
    decodeLoop R showAll showOffsets (fuel + 1) offset depth pos rest n a
      = afterStep R showAll showOffsets fuel offset depth pos rest n a
          (step R showAll showOffsets ((pos : Int) + offset) rest) := by
  unfold step
  simp only [decodeLoop]
  cases h : readUvarint rest with
  | error e =>
    by_cases he : e = .eof <;> simp [he, afterStep]
  | ok p =>
    obtain ⟨i, r1⟩ := p
    simp only []
    by_cases h0 : i = 0
    · simp [h0, afterStep]
    simp only [h0, if_false, Nat.not_lt_zero]
    by_cases hk : i >>> 3 > 1024
    · simp [hk, afterStep]
    simp only [hk, if_false]
    by_cases t0 : i &&& 0x03 = 0
    · simp only [t0, if_true]
      cases h2 : readUvarint r1 with
      | error e => simp [afterStep]
      | ok q => obtain ⟨v, r2⟩ := q; simp [afterStep]
    simp only [t0, if_false]
    by_cases t1 : i &&& 0x03 = 1
    · simp only [t1, if_true]
      by_cases hr : r1.isEmpty = true
      · simp [hr, afterStep]
      · simp [hr, afterStep]
    simp only [t1, if_false]
    by_cases t2 : i &&& 0x03 = 2
    · simp only [t2, if_true]
      cases h2 : readUvarint r1 with
      | error e => simp [afterStep]
      | ok q =>
        obtain ⟨l, r2⟩ := q
        simp only [Nat.not_lt_zero, if_false]
        by_cases hl : l > 1024 * 32
        · simp [hl, afterStep]
        simp only [hl, if_false]
        by_cases hs : r2.length < l
        · simp [hs, afterStep]
        simp only [hs, if_false, afterStep]
        try rfl
    simp only [t2, if_false, land3_ne_five, afterStep]

theorem after_zero_nil (r : DecodeResult) : r.after 0 [] = r := by
  cases r; simp [DecodeResult.after]

theorem after_after (n m : Nat) (a b : List String) (r : DecodeResult) :
    (r.after m b).after n a = r.after (n + m) (a ++ b) := by
  simp [DecodeResult.after, Nat.add_assoc]

theorem step_flat_length {R : Render} {sa so : Bool} {base : Int} {rest : List UInt8}
    {L : List String} {r2 : List UInt8} (h : step R sa so base rest = .flat L r2) :
    r2.length < rest.length := by
  unfold step at h
  cases h1 : readUvarint rest with
  | error e => rw [h1] at h; simp only [] at h; split_ifs at h
  | ok p =>
    obtain ⟨i, r1⟩ := p
    rw [h1] at h
    simp only [] at h
    have l1 := readUvarint_length h1
    split_ifs at h with c0 c1 c2 c3 c4 c5
    · cases h2 : readUvarint r1 with
      | error e => rw [h2] at h; simp at h
      | ok q =>
        obtain ⟨v, r2'⟩ := q
        rw [h2] at h
        simp only [Step.flat.injEq] at h
        have l2 := readUvarint_length h2
        rw [← h.2]; omega
    · simp only [Step.flat.injEq] at h
      rw [← h.2]; simp only [List.length_drop]; omega
    · cases h2 : readUvarint r1 with
      | error e => rw [h2] at h; simp at h
      | ok q =>
        obtain ⟨l, r2'⟩ := q
        rw [h2] at h
        simp only [] at h
        split_ifs at h

theorem step_sub_length {R : Render} {sa so : Bool} {base : Int} {rest : List UInt8}
    {k : Nat} {v r3 : List UInt8} {hdr : Nat} (h : step R sa so base rest = .sub k v r3 hdr) :
    2 ≤ hdr ∧ hdr + v.length + r3.length = rest.length := by
  unfold step at h
  cases h1 : readUvarint rest with
  | error e => rw [h1] at h; simp only [] at h; split_ifs at h
  | ok p =>
    obtain ⟨i, r1⟩ := p
    rw [h1] at h
    simp only [] at h
    have l1 := readUvarint_length h1
    split_ifs at h with c0 c1 c2 c3 c4 c5
    · cases h2 : readUvarint r1 with
      | error e => rw [h2] at h; simp at h
      | ok q => obtain ⟨v, r2'⟩ := q; rw [h2] at h; simp at h
    · cases h2 : readUvarint r1 with
      | error e => rw [h2] at h; simp at h
      | ok q =>
        obtain ⟨l, r2⟩ := q
        rw [h2] at h
        simp only [] at h
        have l2 := readUvarint_length h2
        split_ifs at h with d1 d2
        simp only [Step.sub.injEq] at h
        obtain ⟨-, hv, hr, hh⟩ := h
        subst hv hr hh
        simp only [List.length_take, List.length_drop]
        omega

/-- With more fuel than bytes the loop returns, and what it returns is the
result of `decode` on the remaining bytes at their absolute offset, placed
behind the fields already counted. -/
theorem decodeLoop_canon (R : Render) (sa so : Bool) :
    ∀ (m : Nat) (rest : List UInt8), rest.length ≤ m →
      ∀ (f f' : Nat) (off d : Int) (pos n : Nat) (a : List String) (d' : Int),
        rest.length < f → rest.length < f' →
        (∃ r, decodeLoop R sa so f' ((pos : Int) + off) d' 0 rest 0 [] = some r ∧
          decodeLoop R sa so f off d pos rest n a = some (r.after n a)) := by
  intro m
  induction m with
  | zero =>
    intro rest hm f f' off d pos n a d' hf hf'
    have hnil : rest = [] := List.length_eq_zero.mp (by omega)
    subst hnil
    obtain ⟨f0, rfl⟩ : ∃ f0, f = f0 + 1 := ⟨f - 1, by simp at hf; omega⟩
    obtain ⟨g, rfl⟩ : ∃ g, f' = g + 1 := ⟨f' - 1, by simp at hf'; omega⟩
    refine ⟨⟨0, [], none⟩, ?_, ?_⟩ <;>
      simp [decodeLoop, readUvarint, readUvarintLoop, MaxVarintLen64, DecodeResult.after]
  | succ m ih =>
    intro rest hm f f' off d pos n a d' hf hf'
    obtain ⟨f0, rfl⟩ : ∃ f0, f = f0 + 1 := ⟨f - 1, by omega⟩
    obtain ⟨g, rfl⟩ : ∃ g, f' = g + 1 := ⟨f' - 1, by omega⟩
    rw [decodeLoop_succ, decodeLoop_succ]
    have hb : (((0 : Nat) : Int) + ((pos : Int) + off)) = (pos : Int) + off := by simp
    rw [hb]
    cases hs : step R sa so ((pos : Int) + off) rest with
    | ret e =>
      exact ⟨⟨0, [], e⟩, by simp [afterStep], by simp [afterStep, DecodeResult.after]⟩
    | flat L r2 =>
      have hl := step_flat_length hs
      simp only [afterStep]
      obtain ⟨r, h1, h2⟩ := ih r2 (by omega) f0 (r2.length + 1) off d
        (pos + (rest.length - r2.length)) (n + 1) (a ++ L) 0 (by omega) (by omega)
      obtain ⟨r', h1', h2'⟩ := ih r2 (by omega) g (r2.length + 1) ((pos : Int) + off) d'
        (0 + (rest.length - r2.length)) (0 + 1) ([] ++ L) 0 (by omega) (by omega)
      have eb : ((pos + (rest.length - r2.length) : Nat) : Int) + off
          = ((0 + (rest.length - r2.length) : Nat) : Int) + ((pos : Int) + off) := by
        push_cast; ring
      rw [eb] at h1
      rw [h1] at h1'
      cases h1'
      refine ⟨_, h2', ?_⟩
      rw [h2, after_after]
      simp
    | sub k v r3 hdr =>
      obtain ⟨hh, hl⟩ := step_sub_length hs
      simp only [afterStep]
      have eo : wrapInt64 (((0 + hdr : Nat) : Int) + ((pos : Int) + off))
          = wrapInt64 (((pos + hdr : Nat) : Int) + off) := by
        congr 1; push_cast; ring
      rw [eo]
      obtain ⟨mv, hm1, hm2⟩ := ih v (by omega) f0 (v.length + 1)
        (wrapInt64 (((pos + hdr : Nat) : Int) + off)) (d + 1) 0 0 [] 0 (by omega) (by omega)
      obtain ⟨mv', hm1', hm2'⟩ := ih v (by omega) g (v.length + 1)
        (wrapInt64 (((pos + hdr : Nat) : Int) + off)) (d' + 1) 0 0 [] 0 (by omega) (by omega)
      rw [hm1] at hm1'
      cases hm1'
      rw [hm2, hm2']
      simp only [after_zero_nil]
      obtain ⟨r, h1, h2⟩ := ih r3 (by omega) f0 (r3.length + 1) off d
        (pos + (rest.length - r3.length)) (n + 1)
        (a ++ bytesLines R (formatKey k (wrapInt64 (((pos + hdr : Nat) : Int) + off)) so) v mv) 0
        (by omega) (by omega)
      obtain ⟨r', h1', h2'⟩ := ih r3 (by omega) g (r3.length + 1) ((pos : Int) + off) d'
        (0 + (rest.length - r3.length)) (0 + 1)
        ([] ++ bytesLines R (formatKey k (wrapInt64 (((pos + hdr : Nat) : Int) + off)) so) v mv) 0
        (by omega) (by omega)
      have eb : ((pos + (rest.length - r3.length) : Nat) : Int) + off
          = ((0 + (rest.length - r3.length) : Nat) : Int) + ((pos : Int) + off) := by
        push_cast; ring
      rw [eb] at h1
      rw [h1] at h1'
      cases h1'
      refine ⟨_, h2', ?_⟩
      rw [h2, after_after]
      simp

theorem wrapInt64_of_range {x : Int} (h1 : -2 ^ 63 ≤ x) (h2 : x < 2 ^ 63) : wrapInt64 x = x := by
  unfold wrapInt64; omega

theorem wrapInt64_wrapInt64_add (x y : Int) : wrapInt64 (wrapInt64 x + y) = wrapInt64 (x + y) := by
  unfold wrapInt64; omega

/-- The loop started anywhere with enough fuel is `decode` of the remaining bytes. -/
theorem decodeLoop_eq_decode (R : Render) (sa so : Bool) (f : Nat) (off d : Int) (pos n : Nat)
    (a : List String) (rest : List UInt8) (d' : Int) (hf : rest.length < f) :
    ∃ r, decode R rest ((pos : Int) + off) d' sa so = some r ∧
      decodeLoop R sa so f off d pos rest n a = some (r.after n a) :=
  decodeLoop_canon R sa so rest.length rest (Nat.le_refl _) f (rest.length + 1) off d pos n a d'
    hf (Nat.lt_succ_self _)

/-- Function `decode` returns on every input. -/
theorem decode_total (R : Render) (input : List UInt8) (off d : Int) (sa so : Bool) :
    ∃ r, decode R input off d sa so = some r := by
  obtain ⟨r, h, -⟩ := decodeLoop_eq_decode R sa so (input.length + 1) off d 0 0 [] input d
    (Nat.lt_succ_self _)
  simp only [Nat.cast_zero, zero_add] at h
  exact ⟨r, h⟩

/-- The depth argument of `decode` has no effect on the result. -/
theorem decode_depth (R : Render) (input : List UInt8) (off d d' : Int) (sa so : Bool) :
    decode R input off d sa so = decode R input off d' sa so := by
  obtain ⟨r, h, h2⟩ := decodeLoop_eq_decode R sa so (input.length + 1) off d 0 0 [] input d'
    (Nat.lt_succ_self _)
  simp only [Nat.cast_zero, zero_add] at h
  rw [h]
  unfold decode
  rw [h2, after_zero_nil]

/-- A returning iteration ends `decode` at once. -/
theorem decode_of_step_ret {R : Render} {sa so : Bool} {input : List UInt8} {off : Int}
    {e : Option DecodeError} (d : Int) (h : step R sa so off input = .ret e) :
    decode R input off d sa so = some ⟨0, [], e⟩ := by
  unfold decode
  rw [decodeLoop_succ]
  simp only [Nat.cast_zero, zero_add, h, afterStep]

/-- After a varint or fixed-width field `decode` goes on like `decode` of the
bytes that follow, at their offset. -/
theorem decode_of_step_flat {R : Render} {sa so : Bool} {input : List UInt8} {off : Int}
    {L : List String} {r2 : List UInt8} (d : Int) (h : step R sa so off input = .flat L r2) :
    ∃ r, decode R r2 (off + ((input.length - r2.length : Nat) : Int)) d sa so = some r ∧
      decode R input off d sa so = some ⟨1 + r.n, L ++ r.lines, r.err⟩ := by
  have hl := step_flat_length h
  obtain ⟨r, h1, h2⟩ := decodeLoop_eq_decode R sa so input.length off d
    (0 + (input.length - r2.length)) (0 + 1) ([] ++ L) r2 d hl
  refine ⟨r, ?_, ?_⟩
  · rw [← h1]; congr 1; push_cast; ring
  · unfold decode
    rw [decodeLoop_succ]
    simp only [Nat.cast_zero, zero_add, h, afterStep, List.nil_append]
    simp only [zero_add, List.nil_append] at h2
    rw [h2]
    simp [DecodeResult.after]

/-- After a length-delimited field `decode` has decoded the payload at its
offset, and goes on like `decode` of the bytes that follow the payload. -/
theorem decode_of_step_sub {R : Render} {sa so : Bool} {input : List UInt8} {off : Int}
    {k : Nat} {v r3 : List UInt8} {hdr : Nat} (d : Int)
    (h : step R sa so off input = .sub k v r3 hdr) :
    ∃ m r, decode R v (wrapInt64 (off + (hdr : Int))) (d + 1) sa so = some m ∧
      decode R r3 (off + ((hdr + v.length : Nat) : Int)) d sa so = some r ∧
      decode R input off d sa so
        = some ⟨1 + r.n,
            bytesLines R (formatKey k (wrapInt64 (off + (hdr : Int))) so) v m ++ r.lines, r.err⟩ := by
  obtain ⟨hh, hl⟩ := step_sub_length h
  have eo : wrapInt64 ((hdr : Int) + off) = wrapInt64 (off + (hdr : Int)) := by
    congr 1; ring
  obtain ⟨m, hm1, hm2⟩ := decodeLoop_eq_decode R sa so input.length
    (wrapInt64 (off + (hdr : Int))) (d + 1) 0 0 [] v (d + 1) (by omega)
  simp only [Nat.cast_zero, zero_add] at hm1
  obtain ⟨r, h1, h2⟩ := decodeLoop_eq_decode R sa so input.length off d
    (0 + (input.length - r3.length)) (0 + 1)
    ([] ++ bytesLines R (formatKey k (wrapInt64 (off + (hdr : Int))) so) v m) r3 d (by omega)
  refine ⟨m, r, hm1, ?_, ?_⟩
  · rw [← h1]; congr 1
    have : input.length - r3.length = hdr + v.length := by omega
    rw [this]; push_cast; ring
  · unfold decode
    rw [decodeLoop_succ]
    simp only [Nat.cast_zero, zero_add, h, afterStep, List.nil_append]
    rw [eo, hm2, after_zero_nil]
    simp only [zero_add, List.nil_append] at h2
    simp only [h2]
    simp [DecodeResult.after]

theorem land3_eq_mod (x : Nat) : x &&& 0x03 = x % 4 := by
  have := Nat.and_pow_two_sub_one_eq_mod x 2
  simpa using this

theorem tag_shift (k t : Nat) (ht : t < 8) : k <<< 3 ||| t = 8 * k + t := by
  rw [Nat.shiftLeft_eq, Nat.mul_comm]
  exact (Nat.mul_add_lt_is_or (i := 3) (by simpa using ht) k).symm

theorem shr3_eq_div (x : Nat) : x >>> 3 = x / 8 := by
  rw [Nat.shiftRight_eq_div_pow]

/-- The iteration on a varint field in canonical encoding. -/
theorem step_varint (R : Render) (sa so : Bool) (base : Int) (f v : Nat) (rest : List UInt8)
    (hf1 : 1 ≤ f) (hf2 : f ≤ 1024) (hv : v < 2 ^ 64) :
    step R sa so base (putUvarint (f <<< 3) ++ (putUvarint v ++ rest))
      = .flat (varintLines R (formatKey f (wrapInt64 base) so) v sa) rest := by
  have e : f <<< 3 = 8 * f := by rw [Nat.shiftLeft_eq, Nat.mul_comm]
  have h1 : readUvarint (putUvarint (f <<< 3) ++ (putUvarint v ++ rest))
      = .ok (f <<< 3, putUvarint v ++ rest) :=
    readUvarint_putUvarint _ (by rw [e]; omega) _
  have h2 : readUvarint (putUvarint v ++ rest) = .ok (v, rest) := readUvarint_putUvarint _ hv _
  have c0 : ¬ (f <<< 3 = 0) := by rw [e]; omega
  have c1 : ¬ ((f <<< 3) >>> 3 > 1024) := by rw [shr3_eq_div, e]; omega
  have c2 : (f <<< 3) &&& 0x03 = 0 := by rw [land3_eq_mod, e]; omega
  have c3 : (f <<< 3) >>> 3 = f := by rw [shr3_eq_div, e]; omega
  have c1b : ¬ (f > 1024) := by omega
  unfold step
  simp only [h1, h2, c0, c1, c1b, c2, if_true, if_false, c3]

/-- The iteration on a length-delimited field whose payload is all there. -/
theorem step_bytes (R : Render) (sa so : Bool) (base : Int) (k l : Nat) (p rest : List UInt8)
    (hk : k ≤ 1024) (hl : l ≤ 32768) (hp : p.length = l) :
    step R sa so base (putUvarint (k <<< 3 ||| 2) ++ (putUvarint l ++ (p ++ rest)))
      = .sub k p rest ((putUvarint (k <<< 3 ||| 2)).length + (putUvarint l).length) := by
  have e : k <<< 3 ||| 2 = 8 * k + 2 := tag_shift k 2 (by norm_num)
  have h1 : readUvarint (putUvarint (k <<< 3 ||| 2) ++ (putUvarint l ++ (p ++ rest)))
      = .ok (k <<< 3 ||| 2, putUvarint l ++ (p ++ rest)) :=
    readUvarint_putUvarint _ (by rw [e]; omega) _
  have h2 : readUvarint (putUvarint l ++ (p ++ rest)) = .ok (l, p ++ rest) :=
    readUvarint_putUvarint _ (by omega) _
  have c0 : ¬ (k <<< 3 ||| 2 = 0) := by rw [e]; omega
  have c1 : ¬ ((k <<< 3 ||| 2) >>> 3 > 1024) := by rw [shr3_eq_div, e]; omega
  have c2 : (k <<< 3 ||| 2) &&& 0x03 = 2 := by rw [land3_eq_mod, e]; omega
  have c3 : (k <<< 3 ||| 2) >>> 3 = k := by rw [shr3_eq_div, e]; omega
  have c4 : ¬ (l > 1024 * 32) := by omega
  have c5 : ¬ ((p ++ rest).length < l) := by simp [hp]
  unfold step
  simp only [h1, h2, c0, c1, c2, c3, c4, c5, if_true, if_false]
  have d0 : ¬ ((2 : Nat) = 0) := by decide
  have d1 : ¬ ((2 : Nat) = 1) := by decide
  have c1b : ¬ (1024 < k) := by omega
  simp only [d0, d1, c1b, if_false, if_true, ← hp, List.take_left, List.drop_left,
    List.length_append]
  congr 1
  omega

theorem decode_nil (R : Render) (off d : Int) (sa so : Bool) :
    decode R [] off d sa so = some ⟨0, [], none⟩ := by
  simp [decode, decodeLoop, readUvarint, readUvarintLoop, MaxVarintLen64]

/-- The errors of `readUvarintLoop` are those of `io` and `encoding/binary`. -/
theorem readUvarintLoop_error (bs : List UInt8) :
    ∀ (i x s : Nat) (e : DecodeError), readUvarintLoop i x s bs = .error e →
      e = .eof ∨ e = .unexpectedEOF ∨ e = .overflow := by
  induction bs with
  | nil =>
    intro i x s e h
    simp only [readUvarintLoop] at h
    split_ifs at h <;> cases h <;> simp
  | cons b bs ih =>
    intro i x s e h
    simp only [readUvarintLoop] at h
    split_ifs at h
    · cases h; simp
    · cases h; simp
    · exact ih _ _ _ _ h

theorem readUvarint_error {bs : List UInt8} {e : DecodeError} (h : readUvarint bs = .error e) :
    e = .eof ∨ e = .unexpectedEOF ∨ e = .overflow :=
  readUvarintLoop_error bs 0 0 0 e h

/-- Every error a single iteration returns with a field number or a length in it
carries one beyond the limit. -/
theorem step_ret_bounds {R : Render} {sa so : Bool} {base : Int} {rest : List UInt8}
    {e : DecodeError} (h : step R sa so base rest = .ret (some e)) :
    (∀ k, e = .probablyInvalidKey k → 1024 < k) ∧
      (∀ l, e = .probablyInvalidLength l → 32768 < l) := by
  unfold step at h
  cases h1 : readUvarint rest with
  | error e1 =>
    rw [h1] at h
    simp only [] at h
    have he := readUvarint_error h1
    split_ifs at h
    · simp at h
    · simp only [Step.ret.injEq, Option.some.injEq] at h
      subst h
      rcases he with rfl | rfl | rfl <;> simp
  | ok q =>
    obtain ⟨i, r1⟩ := q
    rw [h1] at h
    simp only [] at h
    split_ifs at h with c0 c1 c2 c3 c4 c5
    · simp only [Step.ret.injEq, Option.some.injEq] at h; subst h; simp
    · simp only [Step.ret.injEq, Option.some.injEq] at h; subst h
      refine ⟨fun k hk => ?_, by simp⟩
      simp only [DecodeError.probablyInvalidKey.injEq] at hk
      omega
    · cases h2 : readUvarint r1 with
      | error e2 =>
        rw [h2] at h
        simp only [Step.ret.injEq, Option.some.injEq] at h
        subst h
        rcases readUvarint_error h2 with rfl | rfl | rfl <;> simp
      | ok q2 => obtain ⟨v, r2⟩ := q2; rw [h2] at h; simp at h
    · simp only [Step.ret.injEq, Option.some.injEq] at h; subst h; simp
    · cases h2 : readUvarint r1 with
      | error e2 =>
        rw [h2] at h
        simp only [Step.ret.injEq, Option.some.injEq] at h
        subst h
        rcases readUvarint_error h2 with rfl | rfl | rfl <;> simp
      | ok q2 =>
        obtain ⟨l, r2⟩ := q2
        rw [h2] at h
        simp only [] at h
        split_ifs at h with d1 d2
        · simp only [Step.ret.injEq, Option.some.injEq] at h; subst h
          refine ⟨by simp, fun l' hl' => ?_⟩
          simp only [DecodeError.probablyInvalidLength.injEq] at hl'
          omega
        · simp only [Step.ret.injEq, Option.some.injEq] at h; subst h; simp
    · simp only [Step.ret.injEq, Option.some.injEq] at h; subst h; simp

/-- No `decode` loop reports a field number of at most 1024 as a probably invalid
key, or a length of at most 32768 as a probably invalid length. -/
theorem decodeLoop_err_bounds (R : Render) (sa so : Bool) :
    ∀ (fuel : Nat) (off d : Int) (pos : Nat) (rest : List UInt8) (n : Nat) (a : List String)
      (r : DecodeResult), decodeLoop R sa so fuel off d pos rest n a = some r →
      (∀ k, r.err = some (.probablyInvalidKey k) → 1024 < k) ∧
        (∀ l, r.err = some (.probablyInvalidLength l) → 32768 < l) := by
  intro fuel
  induction fuel with
  | zero => intro off d pos rest n a r h; simp [decodeLoop] at h
  | succ fuel ih =>
    intro off d pos rest n a r h
    rw [decodeLoop_succ] at h
    cases hs : step R sa so ((pos : Int) + off) rest with
    | ret e =>
      rw [hs] at h
      simp only [afterStep, Option.some.injEq] at h
      subst h
      cases e with
      | none => simp
      | some e =>
        obtain ⟨b1, b2⟩ := step_ret_bounds hs
        exact ⟨fun k hk => b1 k (by simpa using hk), fun l hl => b2 l (by simpa using hl)⟩
    | flat L r2 =>
      rw [hs] at h
      exact ih _ _ _ _ _ _ _ h
    | sub k v r3 hdr =>
      rw [hs] at h
      simp only [afterStep] at h
      split at h
      · cases h
      · exact ih _ _ _ _ _ _ _ h

theorem closest64_eq_pick (R : Render) (v : List UInt8) :
    closest64 R v = pick Closest.init (readings64 R v) := by
  simp only [closest64, pick, readings64, List.foldl]

theorem Mag.lt_irrefl (a : Mag) : Mag.lt a a = false := by
  cases a <;> simp [Mag.lt]

theorem Mag.lt_trans {a b c : Mag} (h1 : Mag.lt a b = true) (h2 : Mag.lt b c = true) :
    Mag.lt a c = true := by
  cases a <;> cases b <;> cases c <;> simp [Mag.lt] at * ; omega

theorem Mag.lt_asymm {a b : Mag} (h1 : Mag.lt a b = true) : Mag.lt b a = false := by
  cases a <;> cases b <;> simp [Mag.lt] at * ; omega

theorem Mag.lt_of_lt_of_not_lt {a b c p : Mag} (h1 : Mag.lt a b = true)
    (h2 : Mag.lt c b = false) (h3 : Mag.lt p c = true) : Mag.lt a c = true := by
  cases a <;> cases b <;> cases c <;> cases p <;> simp [Mag.lt] at * ; omega

/-- What the candidate tests leave: the start value when no reading both exceeds
`0.01` and is below it, and else the first reading of least magnitude among
those that exceed `0.01`. -/
theorem pick_spec (rs : List Reading) : ∀ c : Closest,
    (pick c rs = c ∧ ∀ r ∈ rs, ¬ (r.isAbove = true ∧ Mag.lt r.mag c.value = true)) ∨
    (∃ i r, rs[i]? = some r ∧ pick c rs = ⟨r.mag, r.name, r.text⟩ ∧ r.isAbove = true ∧
      Mag.lt r.mag c.value = true ∧
      (∀ q ∈ rs, q.isAbove = true → Mag.lt q.mag r.mag = false) ∧
      (∀ q ∈ rs.take i, q.isAbove = true → Mag.lt r.mag q.mag = true)) := by
  induction rs with
  | nil => intro c; left; simp [pick]
  | cons r rs ih =>
    intro c
    by_cases hacc : r.isAbove = true ∧ Mag.lt r.mag c.value = true
    · have hstep : pick c (r :: rs) = pick ⟨r.mag, r.name, r.text⟩ rs := by
        have hp : Mag.lt pointZeroOne r.mag = true := hacc.1
        simp [pick, Closest.consider, hp, hacc.2]
      rcases ih ⟨r.mag, r.name, r.text⟩ with ⟨h1, h2⟩ | ⟨i, q, hq, h1, h2, h3, h4, h5⟩
      · right
        refine ⟨0, r, by simp, by rw [hstep, h1], hacc.1, hacc.2, ?_, by simp⟩
        intro q hq hpl
        rcases List.mem_cons.mp hq with rfl | hq
        · exact Mag.lt_irrefl _
        · have := h2 q hq
          simp only [hpl, true_and] at this
          simpa using this
      · right
        refine ⟨i + 1, q, by simpa using hq, by rw [hstep, h1], h2,
          Mag.lt_trans h3 hacc.2, ?_, ?_⟩
        · intro q' hq' hpl
          rcases List.mem_cons.mp hq' with rfl | hq'
          · exact Mag.lt_asymm h3
          · exact h4 q' hq' hpl
        · intro q' hq' hpl
          simp only [List.take_succ_cons, List.mem_cons] at hq'
          rcases hq' with rfl | hq'
          · exact h3
          · exact h5 q' hq' hpl
    · have hstep : pick c (r :: rs) = pick c rs := by
        have : ¬ (Mag.lt pointZeroOne r.mag = true ∧ Mag.lt r.mag c.value = true) := hacc
        simp only [pick, List.foldl_cons, Closest.consider, Bool.and_eq_true, this, if_false]
      rcases ih c with ⟨h1, h2⟩ | ⟨i, q, hq, h1, h2, h3, h4, h5⟩
      · left
        refine ⟨by rw [hstep, h1], ?_⟩
        intro q hq
        rcases List.mem_cons.mp hq with rfl | hq
        · exact hacc
        · exact h2 q hq
      · right
        have hrq : r.isAbove = true → Mag.lt r.mag c.value = false := by
          intro hpl
          by_contra hc
          exact hacc ⟨hpl, by simpa using hc⟩
        refine ⟨i + 1, q, by simpa using hq, by rw [hstep, h1], h2, h3, ?_, ?_⟩
        · intro q' hq' hpl
          rcases List.mem_cons.mp hq' with rfl | hq'
          · by_contra hc
            have hlt : Mag.lt q'.mag q.mag = true := by simpa using hc
            have := Mag.lt_trans hlt h3
            rw [hrq hpl] at this
            cases this
          · exact h4 q' hq' hpl
        · intro q' hq' hpl
          simp only [List.take_succ_cons, List.mem_cons] at hq'
          rcases hq' with rfl | hq'
          · exact Mag.lt_of_lt_of_not_lt h3 (hrq hpl) hpl
          · exact h5 q' hq' hpl

theorem byte_lt (b : UInt8) : b.toNat < 256 := b.val.isLt

theorem pointZeroOne_eq : pointZeroOne = .fin (0x147AE147AE147B * 2 ^ 1015) := by
  decide

theorem maxFloat64_eq : maxFloat64 = .fin ((2 ^ 53 - 1) * 2 ^ 2045) := by
  decide

theorem dropBits_spec (n : Nat) : ∀ (steps sh : Nat),
    sh ≤ dropBits n steps sh ∧ dropBits n steps sh ≤ sh + steps ∧
      (dropBits n steps sh = sh ∨ 2 ^ 53 ≤ n / 2 ^ (dropBits n steps sh - 1)) := by
  intro steps
  induction steps with
  | zero => intro sh; simp [dropBits]
  | succ steps ih =>
    intro sh
    simp only [dropBits]
    split_ifs with h
    · simp
    · obtain ⟨h1, h2, h3⟩ := ih (sh + 1)
      refine ⟨by omega, by omega, Or.inr ?_⟩
      rcases h3 with h3 | h3
      · rw [h3]; simpa using h
      · exact h3

theorem roundTo53_bounds (n : Nat) (h1 : 1 ≤ n) (h2 : n ≤ 2 ^ 63) :
    1 ≤ roundTo53 n ∧ roundTo53 n ≤ 2 ^ 63 := by
  unfold roundTo53
  obtain ⟨-, hb, hc⟩ := dropBits_spec n 11 0
  generalize dropBits n 11 0 = sh at hb hc
  simp only []
  have hsh : sh ≤ 11 := by omega
  interval_cases sh
  · simp; omega
  all_goals
    norm_num at hc ⊢
    split_ifs <;> omega

theorem eight_bytes_facts (v : List UInt8) (hv : v.length = 8) :
    beUint v < 2 ^ 64 ∧ leUint v < 2 ^ 64 ∧ (beUint v = 0 ↔ leUint v = 0) := by
  match v, hv with
  | [b0, b1, b2, b3, b4, b5, b6, b7], _ =>
    have h0 := byte_lt b0
    have h1 := byte_lt b1
    have h2 := byte_lt b2
    have h3 := byte_lt b3
    have h4 := byte_lt b4
    have h5 := byte_lt b5
    have h6 := byte_lt b6
    have h7 := byte_lt b7
    simp only [beUint, leUint, List.foldl, List.foldr]
    refine ⟨by omega, by omega, by omega⟩

theorem absOfInt_in_range (x : Int) (h1 : 1 ≤ x.natAbs) (h2 : x.natAbs ≤ 2 ^ 63) :
    Mag.lt pointZeroOne (absOfInt x) = true ∧ Mag.lt (absOfInt x) maxFloat64 = true := by
  obtain ⟨b1, b2⟩ := roundTo53_bounds x.natAbs h1 h2
  rw [pointZeroOne_eq, maxFloat64_eq]
  simp only [absOfInt, Mag.lt, decide_eq_true_eq]
  generalize roundTo53 x.natAbs = y at b1 b2
  constructor
  · calc 0x147AE147AE147B * 2 ^ 1015 < 1 * 2 ^ 1074 := by norm_num
      _ ≤ y * 2 ^ 1074 := Nat.mul_le_mul_right _ b1
  · calc y * 2 ^ 1074 ≤ 2 ^ 63 * 2 ^ 1074 := Nat.mul_le_mul_right _ b2
      _ < (2 ^ 53 - 1) * 2 ^ 2045 := by norm_num

theorem readings64_zero (R : Render) (v : List UInt8) (hb : beUint v = 0) (hl : leUint v = 0) :
    ∀ r ∈ readings64 R v, r.isAbove = false := by
  have z1 : Mag.lt pointZeroOne (absFloat64 0) = false := by decide
  have z2 : Mag.lt pointZeroOne (absOfInt (toInt64 0)) = false := by decide
  have z3 : Mag.lt pointZeroOne (absOfInt ((0 : Nat) : Int)) = false := by decide
  intro r hr
  simp only [readings64, hb, hl, List.mem_cons, List.mem_singleton, List.not_mem_nil,
    or_false] at hr
  rcases hr with rfl | rfl | rfl | rfl | rfl | rfl <;> simp only [Reading.isAbove, z1, z2, z3]

/-- The `type64Bit` candidate tests pick by the rule of the specification over
the readings with their `float64` magnitudes. -/
theorem closest64_spec (R : Render) (v : List UInt8) (hv : v.length = 8) :
    ((∀ r ∈ readings64 R v, r.isAbove = false) →
        (closest64 R v).name = "none" ∧ (closest64 R v).text = "") ∧
      ((∃ r ∈ readings64 R v, r.isAbove = true) →
        ∃ i r, (readings64 R v)[i]? = some r ∧ specSelected (readings64 R v) i = true ∧
          (closest64 R v).name = r.name ∧ (closest64 R v).text = r.text) := by
  obtain ⟨hbe, hle, hz⟩ := eight_bytes_facts v hv
  rw [closest64_eq_pick]
  rcases pick_spec (readings64 R v) Closest.init with ⟨h1, h2⟩ | ⟨i, r, hr, h1, h2, h3, h4, h5⟩
  · refine ⟨fun _ => by rw [h1]; exact ⟨rfl, rfl⟩, ?_⟩
    rintro ⟨q, hq, hpl⟩
    exfalso
    have hne : beUint v ≠ 0 := by
      intro h0
      have := readings64_zero R v h0 (hz.mp h0) q hq
      rw [hpl] at this
      cases this
    have hr : (⟨absOfInt (toInt64 (beUint v)), "int64be", toString (toInt64 (beUint v))⟩ : Reading)
        ∈ readings64 R v := by simp [readings64]
    obtain ⟨p1, p2⟩ := absOfInt_in_range (toInt64 (beUint v))
      (by unfold toInt64; split_ifs <;> omega) (by unfold toInt64; split_ifs <;> omega)
    exact h2 _ hr ⟨p1, p2⟩
  · have hmem : r ∈ readings64 R v := List.getElem?_mem hr
    refine ⟨fun hall => ?_, fun _ => ⟨i, r, hr, ?_, by rw [h1], by rw [h1]⟩⟩
    · rw [hall r hmem] at h2
      cases h2
    · simp only [specSelected, hr, h2, Bool.true_and, Bool.and_eq_true, List.all_eq_true,
        Bool.or_eq_true, Bool.not_eq_true']
      refine ⟨fun q hq => ?_, fun q hq => ?_⟩
      · by_cases hp : q.isAbove = true
        · exact Or.inr (h4 q hq hp)
        · exact Or.inl (by simpa using hp)
      · by_cases hp : q.isAbove = true
        · exact Or.inr (h5 q hq hp)
        · exact Or.inl (by simpa using hp)

/-- The iteration on a fixed64 field whose 8 bytes are all there. -/
theorem step_fixed64 (R : Render) (sa so : Bool) (base : Int) (k : Nat) (v rest : List UInt8)
    (hk : k ≤ 1024) (hv : v.length = 8) :
    step R sa so base (putUvarint (k <<< 3 ||| 1) ++ (v ++ rest))
      = .flat (fixedLines (formatKey k (wrapInt64 base) so) (closest64 R v) (all64 R v) sa)
          rest := by
  have e : k <<< 3 ||| 1 = 8 * k + 1 := tag_shift k 1 (by norm_num)
  have h1 : readUvarint (putUvarint (k <<< 3 ||| 1) ++ (v ++ rest))
      = .ok (k <<< 3 ||| 1, v ++ rest) :=
    readUvarint_putUvarint _ (by rw [e]; omega) _
  have c0 : ¬ (k <<< 3 ||| 1 = 0) := by rw [e]; omega
  have c1 : ¬ ((k <<< 3 ||| 1) >>> 3 > 1024) := by rw [shr3_eq_div, e]; omega
  have c2 : (k <<< 3 ||| 1) &&& 0x03 = 1 := by rw [land3_eq_mod, e]; omega
  have c3 : (k <<< 3 ||| 1) >>> 3 = k := by rw [shr3_eq_div, e]; omega
  have c1b : ¬ (k > 1024) := by omega
  have hne : (v ++ rest).isEmpty = false := by
    cases v with
    | nil => simp at hv
    | cons b bs => rfl
  have hread : readInto 8 (v ++ rest) = v := by
    unfold readInto
    rw [← hv, List.take_left]
    simp
  have hdrop : (v ++ rest).drop 8 = rest := by
    rw [← hv, List.drop_left]
  have d0 : ¬ ((1 : Nat) = 0) := by decide
  unfold step
  simp only [h1, c0, c1, c1b, c2, c3, d0, hne, hread, hdrop, if_true, if_false,
    Bool.false_eq_true]

/-! ## The claims -/

/-- C1: a buffer holding exactly one canonically encoded varint field with field
number `f` in `[1,1024]` and value `v` decodes, with `showAll = false`, to field
count 1, no error and one line: `formatKey(f, offset)`, then
`: (varint, microseconds) ` and the time of `v / 1000` seconds when
`1400000000000 < v < 1500000000000`, `: (varint, milliseconds) ` and the time of
`v` seconds when `1400000000 < v < 1500000000`, and `: (varint) ` and the decimal
`v` otherwise. -/
theorem decode_single_varint (R : Render) (f v : Nat) (offset depth : Int) (showOffsets : Bool)
    (hf1 : 1 ≤ f) (hf2 : f ≤ 1024) (hv : v < 2 ^ 64)
    (ho1 : -2 ^ 63 ≤ offset) (ho2 : offset < 2 ^ 63) :
    decode R (putUvarint (f <<< 3) ++ putUvarint v) offset depth false showOffsets
      = some ⟨1,
          [if 1400000000000 < v ∧ v < 1500000000000 then
              formatKey f offset showOffsets ++ ": (varint, microseconds) "
                ++ R.unixTime ((v / 1000 : Nat) : Int)
            else if 1400000000 < v ∧ v < 1500000000 then
              formatKey f offset showOffsets ++ ": (varint, milliseconds) "
                ++ R.unixTime (v : Int)
            else formatKey f offset showOffsets ++ ": (varint) " ++ toString v],
          none⟩ := by
  have hs := step_varint R false showOffsets offset f v [] hf1 hf2 hv
  rw [List.append_nil] at hs
  obtain ⟨r, h1, h2⟩ := decode_of_step_flat depth hs
  rw [decode_nil] at h1
  cases h1
  rw [h2, wrapInt64_of_range ho1 ho2]
  have hw : wrapUint64 v = v := Nat.mod_eq_of_lt hv
  simp only [varintLines, hw, if_true, Bool.false_eq_true, if_false, List.append_nil,
    Nat.add_zero]
  by_cases c1 : 1400000000000 < v ∧ v < 1500000000000
  · have : wrapInt64 ((v / 1000 : Nat) : Int) = ((v / 1000 : Nat) : Int) :=
      wrapInt64_of_range (by omega) (by omega)
    simp only [c1, and_self, if_true, this]
  · by_cases c2 : 1400000000 < v ∧ v < 1500000000
    · have : wrapInt64 (v : Int) = (v : Int) := wrapInt64_of_range (by omega) (by omega)
      simp only [c1, c2, and_self, if_true, if_false, this]
    · simp only [c1, c2, if_false]

/-- C1 at field 1, value 1450000000000 (microsecond window), offset 7, with
offsets shown. -/
theorem decode_single_varint_witness :
    decode Render.sample (putUvarint (1 <<< 3) ++ putUvarint 1450000000000) 7 0 false true
      = some ⟨1, ["1 @ 7: (varint, microseconds) unix(1450000000)"], none⟩ :=
  decode_single_varint Render.sample 1 1450000000000 7 0 true (by decide) (by decide)
    (by decide) (by decide) (by decide)

/-- C2: a length-delimited field (field number `k ≤ 1024`, length `l ≤ 32768`,
all `l` payload bytes present) whose payload `p` decodes without error is
rendered, for every flag setting, as the line `formatKey(k, o) ++ ": {"`, the
lines of the nested decode each behind two spaces, and the line `}`, where `o` is
the offset of the payload start; `decode` then goes on with the bytes after the
payload.  With `l = 0` the block is the two lines `k: {` and `}`. -/
theorem decode_nested_block (R : Render) (showAll showOffsets : Bool) (k l : Nat)
    (p rest : List UInt8) (offset depth : Int) (m : DecodeResult)
    (hk : k ≤ 1024) (hl : l ≤ 32768) (hp : p.length = l)
    (hm : decode R p
      (wrapInt64 (offset + (((putUvarint (k <<< 3 ||| 2)).length + (putUvarint l).length : Nat) : Int)))
      (depth + 1) showAll showOffsets = some m)
    (he : m.err = none) :
    ∃ r, decode R rest
        (offset + (((putUvarint (k <<< 3 ||| 2)).length + (putUvarint l).length + l : Nat) : Int))
        depth showAll showOffsets = some r ∧
      decode R (putUvarint (k <<< 3 ||| 2) ++ putUvarint l ++ p ++ rest) offset depth
          showAll showOffsets
        = some ⟨1 + r.n,
            [formatKey k (wrapInt64 (offset +
                (((putUvarint (k <<< 3 ||| 2)).length + (putUvarint l).length : Nat) : Int)))
              showOffsets ++ ": \x7b"]
            ++ m.lines.map (fun s => "  " ++ s) ++ ["\x7d"] ++ r.lines,
            r.err⟩ ∧
      (l = 0 → m.lines = []) := by
  have hs := step_bytes R showAll showOffsets offset k l p rest hk hl hp
  obtain ⟨m', r, h1, h2, h3⟩ := decode_of_step_sub depth hs
  rw [hm] at h1
  cases h1
  refine ⟨r, ?_, ?_, ?_⟩
  · rw [← h2, hp]
  · simp only [List.append_assoc] at h3 ⊢
    rw [h3]
    simp only [bytesLines, he, if_true, List.append_assoc]
  · intro h0
    have : p = [] := List.length_eq_zero.mp (by omega)
    subst this
    rw [decode_nil] at hm
    cases hm
    rfl

/-- C2 at the payload `08 01` of field 1, followed by nothing. -/
theorem decode_nested_block_witness :
    ∃ r, decode Render.sample [] (0 + ((1 + 1 + 2 : Nat) : Int)) 0 false false = some r ∧
      decode Render.sample (putUvarint (1 <<< 3 ||| 2) ++ putUvarint 2 ++ [0x08, 0x01] ++ [])
          0 0 false false
        = some ⟨1 + r.n, ["1: \x7b"] ++ ["  1: (varint) 1"] ++ ["\x7d"] ++ r.lines, r.err⟩ ∧
      ((2 : Nat) = 0 → ["1: (varint) 1"] = ([] : List String)) :=
  decode_nested_block Render.sample false false 1 2 [0x08, 0x01] [] 0 0
    ⟨1, ["1: (varint) 1"], none⟩ (by decide) (by decide) (by decide) (by decide) (by decide)

/-- C3: a length-delimited field (field number `k ≤ 1024`, length `l ≤ 32768`,
all `l` payload bytes present) whose payload `p` does not decode without error is
rendered as one line: `formatKey ++ ": (string) "` and the quoted payload when
`p` is valid UTF-8, `formatKey ++ ": (bytes) "` and the lowercase hex of `p`
otherwise. -/
theorem decode_string_or_bytes (R : Render) (showAll showOffsets : Bool) (k l : Nat)
    (p rest : List UInt8) (offset depth : Int) (m : DecodeResult)
    (hk : k ≤ 1024) (hl : l ≤ 32768) (hp : p.length = l)
    (hm : decode R p
      (wrapInt64 (offset + (((putUvarint (k <<< 3 ||| 2)).length + (putUvarint l).length : Nat) : Int)))
      (depth + 1) showAll showOffsets = some m)
    (he : m.err ≠ none) :
    ∃ r, decode R rest
        (offset + (((putUvarint (k <<< 3 ||| 2)).length + (putUvarint l).length + l : Nat) : Int))
        depth showAll showOffsets = some r ∧
      decode R (putUvarint (k <<< 3 ||| 2) ++ putUvarint l ++ p ++ rest) offset depth
          showAll showOffsets
        = some ⟨1 + r.n,
            [if validUTF8 p then
                formatKey k (wrapInt64 (offset +
                  (((putUvarint (k <<< 3 ||| 2)).length + (putUvarint l).length : Nat) : Int)))
                  showOffsets ++ ": (string) " ++ R.quote p
              else
                formatKey k (wrapInt64 (offset +
                  (((putUvarint (k <<< 3 ||| 2)).length + (putUvarint l).length : Nat) : Int)))
                  showOffsets ++ ": (bytes) " ++ hexEncode p]
            ++ r.lines,
            r.err⟩ := by
  have hs := step_bytes R showAll showOffsets offset k l p rest hk hl hp
  obtain ⟨m', r, h1, h2, h3⟩ := decode_of_step_sub depth hs
  rw [hm] at h1
  cases h1
  refine ⟨r, ?_, ?_⟩
  · rw [← h2, hp]
  · simp only [List.append_assoc] at h3 ⊢
    rw [h3]
    simp only [bytesLines, he, if_false]
    by_cases hu : validUTF8 p = true <;> simp [hu]

/-- C3 at the payload `FF FF FF`, a tag varint cut short: one `(bytes)` line. -/
theorem decode_string_or_bytes_witness :
    ∃ r, decode Render.sample [] (0 + ((1 + 1 + 3 : Nat) : Int)) 0 false false = some r ∧
      decode Render.sample (putUvarint (1 <<< 3 ||| 2) ++ putUvarint 3 ++ [0xFF, 0xFF, 0xFF] ++ [])
          0 0 false false
        = some ⟨1 + r.n, ["1: (bytes) ffffff"] ++ r.lines, r.err⟩ :=
  decode_string_or_bytes Render.sample false false 1 3 [0xFF, 0xFF, 0xFF] [] 0 0
    ⟨0, [], some .unexpectedEOF⟩ (by decide) (by decide) (by decide) (by decide) (by decide)

/-- C4: whatever the payload `p` of a length-delimited field (field number
`k ≤ 1024`, length `l ≤ 32768`, all `l` bytes present) holds, the nested decode
of `p` returns, and the enclosing `decode` counts the field and goes on: its
count is one more than that of `decode` on the bytes after the payload at their
offset, and its error is the error of that `decode`. -/
theorem nested_error_not_propagated (R : Render) (showAll showOffsets : Bool) (k l : Nat)
    (p rest : List UInt8) (offset depth : Int)
    (hk : k ≤ 1024) (hl : l ≤ 32768) (hp : p.length = l) :
    ∃ m r res,
      decode R p
        (wrapInt64 (offset + (((putUvarint (k <<< 3 ||| 2)).length + (putUvarint l).length : Nat) : Int)))
        (depth + 1) showAll showOffsets = some m ∧
      decode R rest
        (offset + (((putUvarint (k <<< 3 ||| 2)).length + (putUvarint l).length + l : Nat) : Int))
        depth showAll showOffsets = some r ∧
      decode R (putUvarint (k <<< 3 ||| 2) ++ putUvarint l ++ p ++ rest) offset depth
        showAll showOffsets = some res ∧
      res.n = 1 + r.n ∧ res.err = r.err := by
  have hs := step_bytes R showAll showOffsets offset k l p rest hk hl hp
  obtain ⟨m, r, h1, h2, h3⟩ := decode_of_step_sub depth hs
  simp only [List.append_assoc] at h3 ⊢
  refine ⟨m, r, _, h1, ?_, h3, rfl, rfl⟩
  rw [← h2, hp]

/-- C4 at the payload `FF FF FF` followed by the varint field `08 01`. -/
theorem nested_error_not_propagated_witness :
    ∃ m r res,
      decode Render.sample [0xFF, 0xFF, 0xFF] (wrapInt64 (0 + ((1 + 1 : Nat) : Int))) (0 + 1)
        false false = some m ∧
      decode Render.sample [0x08, 0x01] (0 + ((1 + 1 + 3 : Nat) : Int)) 0 false false = some r ∧
      decode Render.sample
        (putUvarint (1 <<< 3 ||| 2) ++ putUvarint 3 ++ [0xFF, 0xFF, 0xFF] ++ [0x08, 0x01]) 0 0
        false false = some res ∧
      res.n = 1 + r.n ∧ res.err = r.err :=
  nested_error_not_propagated Render.sample false false 1 3 [0xFF, 0xFF, 0xFF] [0x08, 0x01] 0 0
    (by decide) (by decide) (by decide)

/-- C5 (amended): for every 8-byte fixed64 payload the primary line shows the
label and text picked by this rule: among the six readings (float64 BE,
float64 LE, int64 BE, int64 LE, uint64 BE, uint64 LE, in that order) whose
magnitude as a `float64` exceeds 0.01, the one of least `float64` magnitude, the
earliest winning ties; when no reading exceeds 0.01 the label is `none` and the
text is empty. -/
theorem fixed64_primary_line (R : Render) (showAll showOffsets : Bool) (k : Nat)
    (v : List UInt8) (offset depth : Int) (hk : k ≤ 1024) (hv : v.length = 8) :
    (∃ more, decode R (putUvarint (k <<< 3 ||| 1) ++ v) offset depth showAll showOffsets
        = some ⟨1,
            (formatKey k (wrapInt64 offset) showOffsets ++ ": (" ++ (closest64 R v).name ++ ") "
              ++ (closest64 R v).text) :: more,
            none⟩) ∧
      ((∀ r ∈ readings64 R v, r.isAbove = false) →
        (closest64 R v).name = "none" ∧ (closest64 R v).text = "") ∧
      ((∃ r ∈ readings64 R v, r.isAbove = true) →
        ∃ i r, (readings64 R v)[i]? = some r ∧ specSelected (readings64 R v) i = true ∧
          (closest64 R v).name = r.name ∧ (closest64 R v).text = r.text) := by
  refine ⟨?_, closest64_spec R v hv⟩
  have hs := step_fixed64 R showAll showOffsets offset k v [] hk hv
  rw [List.append_nil] at hs
  obtain ⟨r, h1, h2⟩ := decode_of_step_flat depth hs
  rw [decode_nil] at h1
  cases h1
  rw [h2]
  exact ⟨(fixedLines (formatKey k (wrapInt64 offset) showOffsets) (closest64 R v) (all64 R v)
    showAll).tail, by simp [fixedLines]⟩

/-- C5 (amended) at the payload `00 00 00 00 00 00 F0 3F` of field 1, whose
little-endian float64 reading is 1.0. -/
theorem fixed64_primary_line_witness :
    (closest64 Render.sample [0, 0, 0, 0, 0, 0, 0xF0, 0x3F]).name = "doublele" ∧
    specSelected (readings64 Render.sample [0, 0, 0, 0, 0, 0, 0xF0, 0x3F]) 1 = true ∧
    ((∃ more, decode Render.sample (putUvarint (1 <<< 3 ||| 1) ++ [0, 0, 0, 0, 0, 0, 0xF0, 0x3F])
          0 0 false false
        = some ⟨1,
            (formatKey 1 (wrapInt64 0) false ++ ": ("
              ++ (closest64 Render.sample [0, 0, 0, 0, 0, 0, 0xF0, 0x3F]).name ++ ") "
              ++ (closest64 Render.sample [0, 0, 0, 0, 0, 0, 0xF0, 0x3F]).text) :: more,
            none⟩) ∧
      ((∀ r ∈ readings64 Render.sample [0, 0, 0, 0, 0, 0, 0xF0, 0x3F], r.isAbove = false) →
        (closest64 Render.sample [0, 0, 0, 0, 0, 0, 0xF0, 0x3F]).name = "none" ∧
          (closest64 Render.sample [0, 0, 0, 0, 0, 0, 0xF0, 0x3F]).text = "") ∧
      ((∃ r ∈ readings64 Render.sample [0, 0, 0, 0, 0, 0, 0xF0, 0x3F], r.isAbove = true) →
        ∃ i r, (readings64 Render.sample [0, 0, 0, 0, 0, 0, 0xF0, 0x3F])[i]? = some r ∧
          specSelected (readings64 Render.sample [0, 0, 0, 0, 0, 0, 0xF0, 0x3F]) i = true ∧
          (closest64 Render.sample [0, 0, 0, 0, 0, 0, 0xF0, 0x3F]).name = r.name ∧
          (closest64 Render.sample [0, 0, 0, 0, 0, 0, 0xF0, 0x3F]).text = r.text)) :=
  ⟨by decide, by decide,
    fixed64_primary_line Render.sample false false 1 [0, 0, 0, 0, 0, 0, 0xF0, 0x3F] 0 0
      (by decide) (by decide)⟩

/-- C5 as stated fails at the payload `80 00 00 00 FF FF FF 7F`: the int64 LE
reading 9223372032559808640 has the least exact absolute value above 0.01, one
less than that of the int64 BE reading -9223372032559808641, and both round to
the same `float64`; `decode` shows the int64 BE reading, the earlier one. -/
theorem fixed64_exact_magnitude_counterexample :
    decode Render.sample (0x09 :: [0x80, 0, 0, 0, 0xFF, 0xFF, 0xFF, 0x7F]) 0 0 false false
        = some ⟨1, ["1: (int64be) -9223372032559808641"], none⟩ ∧
      specSelected (exactReadings64 Render.sample [0x80, 0, 0, 0, 0xFF, 0xFF, 0xFF, 0x7F]) 3 = true ∧
      (exactReadings64 Render.sample [0x80, 0, 0, 0, 0xFF, 0xFF, 0xFF, 0x7F])[3]?.map
          (fun r => (r.name, r.text)) = some ("int64le", "9223372032559808640") := by
  decide

/-- C6 fails on the code: the wire type is taken as `tag & 0x03`, which is never
5, so the tag byte `0D` (field 1, wire type 5) is handled as fixed64.  With the
four payload bytes `00 00 80 3F` (the float32 1.0, little-endian) the line
carries the 64-bit label `int64le` over the payload padded with zeros. -/
theorem fixed32_tag_handled_as_fixed64 :
    decode Render.sample [0x0D, 0x00, 0x00, 0x80, 0x3F] 0 0 false false
        = some ⟨1, ["1: (int64le) 1065353216"], none⟩ ∧
      (closest32 Render.sample [0x00, 0x00, 0x80, 0x3F]).name = "floatle" ∧
      ∀ i : Nat, i &&& 0x03 ≠ 5 :=
  ⟨by decide, by decide, land3_ne_five⟩

/-- C7: when the varint at a tag position is 0, the loop of `decode` returns at
once with the error `tag was zero`, the count and the lines it had before, for
every flag setting and whatever follows; so `decode` on a buffer that starts
with such a tag returns no field, no line and that error. -/
theorem tag_zero_aborts (R : Render) (showAll showOffsets : Bool) (fuel : Nat) (offset depth : Int)
    (pos : Nat) (rest r1 : List UInt8) (n : Nat) (a : List String)
    (h : readUvarint rest = .ok (0, r1)) :
    decodeLoop R showAll showOffsets (fuel + 1) offset depth pos rest n a
        = some ⟨n, a, some .tagWasZero⟩ ∧
      decode R rest offset depth showAll showOffsets = some ⟨0, [], some .tagWasZero⟩ ∧
      DecodeError.tagWasZero.message = "tag was zero" := by
  refine ⟨?_, ?_, rfl⟩
  · simp [decodeLoop, h]
  · simp [decode, decodeLoop, h]

/-- C7 at the byte `00` met after one varint field, and in the buffer
`08 01 00 08 01` as a whole. -/
theorem tag_zero_aborts_witness :
    (decodeLoop Render.sample false false (4 + 1) 0 0 2 [0x00, 0x08, 0x01] 1 ["1: (varint) 1"]
        = some ⟨1, ["1: (varint) 1"], some .tagWasZero⟩ ∧
      decode Render.sample [0x00, 0x08, 0x01] 0 0 false false = some ⟨0, [], some .tagWasZero⟩ ∧
      DecodeError.tagWasZero.message = "tag was zero") ∧
    decode Render.sample [0x08, 0x01, 0x00, 0x08, 0x01] 0 0 false false
      = some ⟨1, ["1: (varint) 1"], some .tagWasZero⟩ :=
  ⟨tag_zero_aborts Render.sample false false 4 0 0 2 [0x00, 0x08, 0x01] [0x08, 0x01] 1
    ["1: (varint) 1"] rfl, by decide⟩

/-- C8: when the tag at a tag position has a field number above 1024, the loop
of `decode` returns at once with the error `probably invalid key`, the count and
the lines it had before, for every flag setting; and no field number of at most
1024 is ever reported with that error. -/
theorem key_above_1024_rejected (R : Render) (showAll showOffsets : Bool) (fuel : Nat)
    (offset depth : Int) (pos : Nat) (rest r1 : List UInt8) (i n : Nat) (a : List String)
    (h : readUvarint rest = .ok (i, r1)) (hk : 1024 < i >>> 3) :
    decodeLoop R showAll showOffsets (fuel + 1) offset depth pos rest n a
        = some ⟨n, a, some (.probablyInvalidKey (i >>> 3))⟩ ∧
      (DecodeError.probablyInvalidKey (i >>> 3)).message
        = "probably invalid key " ++ toString (i >>> 3) ∧
      (∀ (input : List UInt8) (off d : Int) (r : DecodeResult) (k : Nat),
        decode R input off d showAll showOffsets = some r →
        r.err = some (.probablyInvalidKey k) → 1024 < k) := by
  have h0 : i ≠ 0 := by
    rintro rfl
    simp at hk
  refine ⟨?_, rfl, ?_⟩
  · simp [decodeLoop, h, h0, hk]
  · intro input off d r k hr he
    exact (decodeLoop_err_bounds R showAll showOffsets _ _ _ _ _ _ _ r hr).1 k he

/-- C8 at the tag `88 40` (field number 1025), and the tag `80 40` (field number
1024) decoded as a field. -/
theorem key_above_1024_rejected_witness :
    decodeLoop Render.sample true true (2 + 1) 0 0 0 [0x88, 0x40, 0x01] 0 []
        = some ⟨0, [], some (.probablyInvalidKey 1025)⟩ ∧
    decode Render.sample [0x80, 0x40, 0x01] 0 0 false false
      = some ⟨1, ["1024: (varint) 1"], none⟩ :=
  ⟨(key_above_1024_rejected Render.sample true true 2 0 0 0 [0x88, 0x40, 0x01] [0x01] 8200 0 []
    rfl (by decide)).1, by decide⟩

/-- C9: when a length-delimited field (wire type bits 2, field number at most
1024) declares a length above 32768, the loop of `decode` returns at once with
the error `probably invalid length`, the count and the lines it had before, for
every flag setting and however many bytes follow; and no length of at most 32768
is ever reported with that error. -/
theorem length_above_32768_rejected (R : Render) (showAll showOffsets : Bool) (fuel : Nat)
    (offset depth : Int) (pos : Nat) (rest r1 r2 : List UInt8) (i l n : Nat) (a : List String)
    (h : readUvarint rest = .ok (i, r1)) (ht : i &&& 0x03 = 2) (hk : i >>> 3 ≤ 1024)
    (h2 : readUvarint r1 = .ok (l, r2)) (hl : 32768 < l) :
    decodeLoop R showAll showOffsets (fuel + 1) offset depth pos rest n a
        = some ⟨n, a, some (.probablyInvalidLength l)⟩ ∧
      (DecodeError.probablyInvalidLength l).message = "probably invalid length " ++ toString l ∧
      (∀ (input : List UInt8) (off d : Int) (r : DecodeResult) (l' : Nat),
        decode R input off d showAll showOffsets = some r →
        r.err = some (.probablyInvalidLength l') → 32768 < l') := by
  have h0 : i ≠ 0 := by
    rintro rfl
    simp at ht
  have hk' : ¬ (1024 < i >>> 3) := by omega
  refine ⟨?_, rfl, ?_⟩
  · simp [decodeLoop, h, h0, hk', ht, h2, hl]
  · intro input off d r l' hr he
    exact (decodeLoop_err_bounds R showAll showOffsets _ _ _ _ _ _ _ r hr).2 l' he

/-- C9 at field 1 with declared length 32769 (`81 80 02`), and with declared
length 32768 (`80 80 02`), which fails for lack of data instead. -/
theorem length_above_32768_rejected_witness :
    decodeLoop Render.sample false true (4 + 1) 0 0 0 [0x0A, 0x81, 0x80, 0x02] 0 []
        = some ⟨0, [], some (.probablyInvalidLength 32769)⟩ ∧
    decode Render.sample [0x0A, 0x80, 0x80, 0x02] 0 0 false false
      = some ⟨0, [], some .notEnoughData⟩ :=
  ⟨(length_above_32768_rejected Render.sample false true 4 0 0 0 [0x0A, 0x81, 0x80, 0x02]
    [0x81, 0x80, 0x02] [] 10 32769 0 [] rfl (by decide) (by decide) rfl
    (by decide)).1, by decide⟩

/-- C10: when the tag at a tag position has field number at most 1024 and its low
two bits are 3, the loop of `decode` returns at once with the error
`invalid type`, the count and the lines it had before, without counting the
field. -/
theorem unknown_wire_type_rejected (R : Render) (showAll showOffsets : Bool) (fuel : Nat)
    (offset depth : Int) (pos : Nat) (rest r1 : List UInt8) (i n : Nat) (a : List String)
    (h : readUvarint rest = .ok (i, r1)) (ht : i &&& 0x03 = 3) (hk : i >>> 3 ≤ 1024) :
    decodeLoop R showAll showOffsets (fuel + 1) offset depth pos rest n a
        = some ⟨n, a, some (.invalidType 3 (wrapInt64 ((pos : Int) + offset)))⟩ ∧
      (DecodeError.invalidType 3 (wrapInt64 ((pos : Int) + offset))).message
        = "invalid type %!s(main.pbType=3)%!(EXTRA int64="
            ++ toString (wrapInt64 ((pos : Int) + offset)) ++ ")" := by
  have h0 : i ≠ 0 := by
    rintro rfl
    simp at ht
  have hk' : ¬ (1024 < i >>> 3) := by omega
  refine ⟨?_, rfl⟩
  simp [decodeLoop, h, h0, hk', ht]

/-- C10 at the tag byte `0B` (field 1, low two bits 3) met after one varint
field. -/
theorem unknown_wire_type_rejected_witness :
    decodeLoop Render.sample false false (1 + 1) 0 0 2 [0x0B] 1 ["1: (varint) 1"]
      = some ⟨1, ["1: (varint) 1"], some (.invalidType 3 2)⟩ :=
  (unknown_wire_type_rejected Render.sample false false 1 0 0 2 [0x0B] [] 11 1 ["1: (varint) 1"]
    rfl (by decide) (by decide)).1

/-! ## Further lemmas -/

/-- What `readUvarintLoop` returns stays below `2^64` when the accumulator does. -/
theorem readUvarintLoop_lt (bs : List UInt8) :
    ∀ (i x s v : Nat) (r : List UInt8), x < 2 ^ 64 →
      readUvarintLoop i x s bs = .ok (v, r) → v < 2 ^ 64 := by
  induction bs with
  | nil =>
    intro i x s v r hx h
    simp only [readUvarintLoop] at h
    split_ifs at h
  | cons b bs ih =>
    intro i x s v r hx h
    simp only [readUvarintLoop] at h
    split_ifs at h with h1 h2 h3
    · simp only [Except.ok.injEq, Prod.mk.injEq] at h
      rw [← h.1]
      exact Nat.or_lt_two_pow hx (Nat.mod_lt _ (by norm_num))
    · exact ih _ _ _ _ _ (Nat.or_lt_two_pow hx (Nat.mod_lt _ (by norm_num))) h

/-- A value read by `readUvarint` is a `uint64`. -/
theorem readUvarint_lt {bs : List UInt8} {v : Nat} {r : List UInt8}
    (h : readUvarint bs = .ok (v, r)) : v < 2 ^ 64 :=
  readUvarintLoop_lt bs 0 0 0 v r (by norm_num) h

/-- On bytes that all have the continuation bit `readUvarintLoop` fails: with
overflow once ten bytes are passed, else with an unexpected end of input, or a
plain end of input when no byte was read at all. -/
theorem readUvarintLoop_all_high (bs : List UInt8) (hb : ∀ b ∈ bs, 0x80 ≤ b.toNat) :
    ∀ (i x s : Nat), readUvarintLoop i x s bs
      = .error (if MaxVarintLen64 ≤ i + bs.length then .overflow
          else if 0 < i + bs.length then .unexpectedEOF else .eof) := by
  induction bs with
  | nil =>
    intro i x s
    simp only [readUvarintLoop, List.length_nil, Nat.add_zero]
    split_ifs <;> rfl
  | cons b bs ih =>
    intro i x s
    have hb0 : ¬ (b.toNat < 0x80) := by
      have := hb b (List.mem_cons_self _ _)
      omega
    simp only [readUvarintLoop, hb0, if_false, List.length_cons]
    by_cases h10 : MaxVarintLen64 ≤ i
    · have : MaxVarintLen64 ≤ i + (bs.length + 1) := by omega
      simp only [h10, this, if_true]
    · simp only [h10, if_false]
      rw [ih (fun c hc => hb c (List.mem_cons_of_mem _ hc))]
      have e : i + 1 + bs.length = i + (bs.length + 1) := by omega
      rw [e]

/-- The lines of the varint case under `showAll` for a `uint64` value: the
classification line and the line with both renderings. -/
theorem varintLines_showAll (R : Render) (p : String) (v : Nat) (hv : v < 2 ^ 64) :
    varintLines R p v true
      = [if 1400000000000 < v ∧ v < 1500000000000 then
            p ++ ": (varint, microseconds) " ++ R.unixTime ((v / 1000 : Nat) : Int)
          else if 1400000000 < v ∧ v < 1500000000 then
            p ++ ": (varint, milliseconds) " ++ R.unixTime (v : Int)
          else p ++ ": (varint) " ++ toString v,
         p ++ ": (varint) " ++ toString v ++ " OR " ++ toString v] := by
  have hw : wrapUint64 v = v := Nat.mod_eq_of_lt hv
  simp only [varintLines, hw, if_true]
  by_cases c1 : 1400000000000 < v ∧ v < 1500000000000
  · have : wrapInt64 ((v / 1000 : Nat) : Int) = ((v / 1000 : Nat) : Int) :=
      wrapInt64_of_range (by omega) (by omega)
    simp only [c1, and_self, if_true, this, List.singleton_append]
  · by_cases c2 : 1400000000 < v ∧ v < 1500000000
    · have : wrapInt64 (v : Int) = (v : Int) := wrapInt64_of_range (by omega) (by omega)
      simp only [c1, c2, and_self, if_true, if_false, this, List.singleton_append]
    · simp only [c1, c2, if_false, List.singleton_append]

/-- With more fuel than bytes `annotLoop` returns; without the levels its lines
are the lines of `decode`, its error is the error of `decode`, and twice the
level of any line is at most the number of bytes. -/
theorem annotLoop_spec (R : Render) (sa so : Bool) :
    ∀ (m : Nat) (rest : List UInt8), rest.length ≤ m →
      ∀ (fuel : Nat) (base : Int), rest.length < fuel →
        ∃ A r, annotLoop R sa so fuel base rest = some (A, r.err) ∧
          decode R rest base 0 sa so = some r ∧ r.lines = A.map Prod.snd ∧
          ∀ x ∈ A, 2 * x.1 ≤ rest.length := by
  intro m
  induction m with
  | zero =>
    intro rest hm fuel base hf
    have hnil : rest = [] := List.length_eq_zero.mp (by omega)
    subst hnil
    obtain ⟨f0, rfl⟩ : ∃ f0, fuel = f0 + 1 := ⟨fuel - 1, by simp at hf; omega⟩
    refine ⟨[], ⟨0, [], none⟩, ?_, decode_nil R base 0 sa so, rfl, by simp⟩
    simp [annotLoop, step, readUvarint, readUvarintLoop, MaxVarintLen64]
  | succ m ih =>
    intro rest hm fuel base hf
    obtain ⟨f0, rfl⟩ : ∃ f0, fuel = f0 + 1 := ⟨fuel - 1, by omega⟩
    cases hs : step R sa so base rest with
    | ret e =>
      refine ⟨[], ⟨0, [], e⟩, ?_, decode_of_step_ret 0 hs, rfl, by simp⟩
      simp [annotLoop, hs]
    | flat L r2 =>
      have hl := step_flat_length hs
      obtain ⟨r, h1, h2⟩ := decode_of_step_flat (0 : Int) hs
      obtain ⟨A, r', ha, hd, hlines, hb⟩ := ih r2 (by omega) f0
        (base + ((rest.length - r2.length : Nat) : Int)) (by omega)
      rw [h1] at hd
      cases hd
      refine ⟨L.map (fun s => (0, s)) ++ A, _, ?_, h2, ?_, ?_⟩
      · simp [annotLoop, hs, ha]
      · simp [hlines, Function.comp_def]
      · intro x hx
        rcases List.mem_append.mp hx with hx | hx
        · obtain ⟨s, -, rfl⟩ := List.mem_map.mp hx
          simp
        · have := hb x hx
          omega
    | sub k v r3 hdr =>
      obtain ⟨hh, hl⟩ := step_sub_length hs
      obtain ⟨mv, r, h1, h2, h3⟩ := decode_of_step_sub (0 : Int) hs
      obtain ⟨Av, rv, hav, hdv, hlv, hbv⟩ := ih v (by omega) f0
        (wrapInt64 (base + (hdr : Int))) (by omega)
      rw [decode_depth R v _ (0 + 1) 0, hdv] at h1
      cases h1
      obtain ⟨A, r', ha, hd, hlines, hb⟩ := ih r3 (by omega) f0
        (base + ((hdr + v.length : Nat) : Int)) (by omega)
      rw [h2] at hd
      cases hd
      refine ⟨(if mv.err = none then
              [(0, formatKey k (wrapInt64 (base + (hdr : Int))) so ++ ": \x7b")]
                ++ Av.map (fun x => (x.1 + 1, "  " ++ x.2)) ++ [(0, "\x7d")]
            else
              (bytesLines R (formatKey k (wrapInt64 (base + (hdr : Int))) so) v
                ⟨0, [], mv.err⟩).map (fun s => (0, s))) ++ A, _, ?_, h3, ?_, ?_⟩
      · simp only [annotLoop, hs, hav, ha]
      · by_cases he : mv.err = none
        · simp [bytesLines, he, hlv, hlines, Function.comp_def]
        · simp [bytesLines, he, hlines, Function.comp_def]
      · intro x hx
        rcases List.mem_append.mp hx with hx | hx
        · by_cases he : mv.err = none
          · simp only [he, if_true, List.mem_append, List.mem_singleton, List.mem_map] at hx
            rcases hx with (rfl | ⟨y, hy, rfl⟩) | rfl
            · simp
            · have := hbv y hy
              simp only
              omega
            · simp
          · simp only [he, if_false, List.mem_map] at hx
            obtain ⟨s, -, rfl⟩ := hx
            simp
        · have := hb x hx
          omega

theorem roundTo53_ge (n : Nat) (h1 : 2 ^ 63 ≤ n) (h2 : n < 2 ^ 64) : 2 ^ 63 ≤ roundTo53 n := by
  unfold roundTo53
  obtain ⟨-, hb, hc⟩ := dropBits_spec n 11 0
  generalize dropBits n 11 0 = sh at hb hc
  simp only []
  have hsh : sh ≤ 11 := by omega
  interval_cases sh
  · simp; omega
  all_goals
    norm_num at hc ⊢
    split_ifs <;> omega

/-- The unsigned reading of a 64-bit pattern is, as a `float64`, not below the
signed reading of the same pattern in absolute value. -/
theorem absOfInt_unsigned_not_lt (u : Nat) (hu : u < 2 ^ 64) :
    Mag.lt (absOfInt (u : Int)) (absOfInt (toInt64 u)) = false := by
  by_cases h : u < 2 ^ 63
  · simp only [toInt64, h, if_true]
    exact Mag.lt_irrefl _
  · simp only [toInt64, h, if_false]
    have e : ((u : Int) - 2 ^ 64).natAbs = 2 ^ 64 - u := by omega
    have b1 := (roundTo53_bounds (2 ^ 64 - u) (by omega) (by omega)).2
    have b2 := roundTo53_ge u (by omega) hu
    simp only [absOfInt, Mag.lt, e, Int.natAbs_ofNat, decide_eq_false_iff_not, not_lt]
    exact Nat.mul_le_mul_right _ (by omega)

theorem eight_bytes_zero (v : List UInt8) (hv : v.length = 8) (h0 : beUint v = 0) :
    ∀ b ∈ v, b.toNat = 0 := by
  match v, hv with
  | [b0, b1, b2, b3, b4, b5, b6, b7], _ =>
    simp only [beUint, List.foldl] at h0
    intro b hb
    simp only [List.mem_cons, List.mem_singleton, List.not_mem_nil, or_false] at hb
    rcases hb with rfl | rfl | rfl | rfl | rfl | rfl | rfl | rfl <;> omega

theorem absOfInt_zero_not_above : Mag.lt pointZeroOne (absOfInt ((0 : Nat) : Int)) = false := by
  decide

/-- A non-zero 64-bit pattern read as `int64` exceeds `0.01` and is below
`math.MaxFloat64` in absolute value. -/
theorem int64_reading_in_range (u : Nat) (h0 : u ≠ 0) (hu : u < 2 ^ 64) :
    Mag.lt pointZeroOne (absOfInt (toInt64 u)) = true ∧
      Mag.lt (absOfInt (toInt64 u)) maxFloat64 = true :=
  absOfInt_in_range (toInt64 u) (by unfold toInt64; split_ifs <;> omega)
    (by unfold toInt64; split_ifs <;> omega)

/-- A buffer that is one fixed64 field with all 8 payload bytes decodes to that
field alone. -/
theorem decode_single_fixed64 (R : Render) (sa so : Bool) (k : Nat) (v : List UInt8)
    (off d : Int) (hk : k ≤ 1024) (hv : v.length = 8) :
    decode R (putUvarint (k <<< 3 ||| 1) ++ v) off d sa so
      = some ⟨1, fixedLines (formatKey k (wrapInt64 off) so) (closest64 R v) (all64 R v) sa,
          none⟩ := by
  have hs := step_fixed64 R sa so off k v [] hk hv
  rw [List.append_nil] at hs
  obtain ⟨r, h1, h2⟩ := decode_of_step_flat d hs
  rw [decode_nil] at h1
  cases h1
  rw [h2]
  simp

/-! ## The claims, continued -/

/-- C11 fails on the code: the fixed64 case ignores the byte count of `r.Read`,
which is an error only when no byte is left.  After the tag `09` (field 1, wire
type 1) a single byte `01`, or seven bytes, are taken as a payload padded with
zeros and the field is counted and rendered; only with nothing after the tag is
an error (`io.EOF`) returned. -/
theorem fixed64_short_read_accepted :
    decode Render.sample [0x09, 0x01] 0 0 false false
        = some ⟨1, ["1: (int64le) 1"], none⟩ ∧
      decode Render.sample [0x09, 0x02, 0, 0, 0, 0, 0, 0] 0 0 false false
        = some ⟨1, ["1: (int64le) 2"], none⟩ ∧
      decode Render.sample [0x09] 0 0 false false = some ⟨0, [], some .eof⟩ := by
  decide

/-- C12: when a length-delimited field (wire type bits 2, field number at most
1024) declares a length `l` of at most 32768 and fewer than `l` bytes are left,
none included, the loop of `decode` returns at once with the error
`couldn't read enough data`, the count and the lines it had before: the field is
neither counted nor rendered. -/
theorem short_payload_rejected (R : Render) (showAll showOffsets : Bool) (fuel : Nat)
    (offset depth : Int) (pos : Nat) (rest r1 r2 : List UInt8) (i l n : Nat) (a : List String)
    (h : readUvarint rest = .ok (i, r1)) (ht : i &&& 0x03 = 2) (hk : i >>> 3 ≤ 1024)
    (h2 : readUvarint r1 = .ok (l, r2)) (hl : l ≤ 32768) (hshort : r2.length < l) :
    decodeLoop R showAll showOffsets (fuel + 1) offset depth pos rest n a
        = some ⟨n, a, some .notEnoughData⟩ ∧
      DecodeError.notEnoughData.message = "couldn\x27t read enough data" := by
  have h0 : i ≠ 0 := by
    rintro rfl
    simp at ht
  have hk' : ¬ (1024 < i >>> 3) := by omega
  have hl' : ¬ (32768 < l) := by omega
  refine ⟨?_, rfl⟩
  simp [decodeLoop, h, h0, hk', ht, h2, hl', hshort]

/-- C12 at field 1 with declared length 3 and two bytes left, met after one
varint field; and in a buffer where nothing at all follows the length. -/
theorem short_payload_rejected_witness :
    (decodeLoop Render.sample false false (4 + 1) 0 0 2 [0x0A, 0x03, 0x41, 0x42] 1
          ["1: (varint) 1"]
        = some ⟨1, ["1: (varint) 1"], some .notEnoughData⟩ ∧
      DecodeError.notEnoughData.message = "couldn\x27t read enough data") ∧
    decode Render.sample [0x0A, 0x03] 0 0 false false = some ⟨0, [], some .notEnoughData⟩ :=
  ⟨short_payload_rejected Render.sample false false 4 0 0 2 [0x0A, 0x03, 0x41, 0x42]
    [0x03, 0x41, 0x42] [0x41, 0x42] 10 3 1 ["1: (varint) 1"] rfl (by decide) (by decide) rfl
    (by decide) (by decide), by decide⟩

/-- C13: with no byte left at a tag position the loop of `decode` returns the
count and the lines so far without error, so the empty buffer gives count 0, no
line and no error, and a buffer that is exactly one varint field gives count 1
and no error; with bytes left that all carry the continuation bit (fewer than
ten, so the tag varint is cut short) the loop returns the count and the lines so
far with the error `unexpected EOF`, also right after a complete field. -/
theorem eof_only_between_fields (R : Render) (showAll showOffsets : Bool) (fuel : Nat)
    (offset depth : Int) (pos n : Nat) (a : List String) (f v : Nat) (tail : List UInt8)
    (hf1 : 1 ≤ f) (hf2 : f ≤ 1024) (hv : v < 2 ^ 64)
    (hne : tail ≠ []) (hhigh : ∀ b ∈ tail, 0x80 ≤ b.toNat) (hlen : tail.length < 10) :
    decodeLoop R showAll showOffsets (fuel + 1) offset depth pos [] n a = some ⟨n, a, none⟩ ∧
      decode R [] offset depth showAll showOffsets = some ⟨0, [], none⟩ ∧
      (∃ r, decode R (putUvarint (f <<< 3) ++ putUvarint v) offset depth showAll showOffsets
          = some r ∧ r.n = 1 ∧ r.err = none) ∧
      decodeLoop R showAll showOffsets (fuel + 1) offset depth pos tail n a
        = some ⟨n, a, some .unexpectedEOF⟩ ∧
      decode R tail offset depth showAll showOffsets = some ⟨0, [], some .unexpectedEOF⟩ ∧
      (∃ r, decode R (putUvarint (f <<< 3) ++ putUvarint v ++ tail) offset depth showAll
          showOffsets = some r ∧ r.n = 1 ∧ r.err = some .unexpectedEOF) := by
  have hread : readUvarint tail = .error .unexpectedEOF := by
    unfold readUvarint
    rw [readUvarintLoop_all_high tail hhigh]
    have h1 : ¬ (MaxVarintLen64 ≤ 0 + tail.length) := by simp [MaxVarintLen64]; omega
    have h2 : 0 < 0 + tail.length := by
      have := List.length_pos.mpr hne
      omega
    simp only [h1, h2, if_true, if_false]
  have hloop : ∀ (fl : Nat) (o dd : Int) (p m : Nat) (l : List String),
      decodeLoop R showAll showOffsets (fl + 1) o dd p tail m l
        = some ⟨m, l, some .unexpectedEOF⟩ := by
    intro fl o dd p m l
    simp [decodeLoop, hread]
  refine ⟨?_, decode_nil R offset depth showAll showOffsets, ?_, hloop _ _ _ _ _ _, ?_, ?_⟩
  · simp [decodeLoop, readUvarint, readUvarintLoop, MaxVarintLen64]
  · have hs := step_varint R showAll showOffsets offset f v [] hf1 hf2 hv
    rw [List.append_nil] at hs
    obtain ⟨r, h1, h2⟩ := decode_of_step_flat depth hs
    rw [decode_nil] at h1
    cases h1
    exact ⟨_, h2, rfl, rfl⟩
  · unfold decode
    exact hloop _ _ _ _ _ _
  · have hs := step_varint R showAll showOffsets offset f v tail hf1 hf2 hv
    obtain ⟨r, h1, h2⟩ := decode_of_step_flat depth hs
    have ht : decode R tail
        (offset + (((putUvarint (f <<< 3) ++ (putUvarint v ++ tail)).length - tail.length : Nat) : Int))
        depth showAll showOffsets = some ⟨0, [], some .unexpectedEOF⟩ := by
      unfold decode
      exact hloop _ _ _ _ _ _
    rw [ht] at h1
    cases h1
    rw [List.append_assoc]
    exact ⟨_, h2, rfl, rfl⟩

/-- C13 at the trailing byte `80` after field 1 = 1. -/
theorem eof_only_between_fields_witness :
    decodeLoop Render.sample false false (2 + 1) 0 0 2 [] 1 ["1: (varint) 1"]
        = some ⟨1, ["1: (varint) 1"], none⟩ ∧
      decode Render.sample [] 0 0 false false = some ⟨0, [], none⟩ ∧
      (∃ r, decode Render.sample (putUvarint (1 <<< 3) ++ putUvarint 1) 0 0 false false
          = some r ∧ r.n = 1 ∧ r.err = none) ∧
      decodeLoop Render.sample false false (2 + 1) 0 0 2 [0x80] 1 ["1: (varint) 1"]
        = some ⟨1, ["1: (varint) 1"], some .unexpectedEOF⟩ ∧
      decode Render.sample [0x80] 0 0 false false = some ⟨0, [], some .unexpectedEOF⟩ ∧
      (∃ r, decode Render.sample (putUvarint (1 <<< 3) ++ putUvarint 1 ++ [0x80]) 0 0 false
          false = some r ∧ r.n = 1 ∧ r.err = some .unexpectedEOF) :=
  eof_only_between_fields Render.sample false false 2 0 0 2 1 ["1: (varint) 1"] 1 1 [0x80]
    (by decide) (by decide) (by decide) (by decide) (by decide) (by decide)

/-- C14: with `showAll = true` a varint field at any tag position (non-zero tag,
wire type bits 0, field number `k` at most 1024, value `v`) adds exactly two
lines, whatever the classification of `v`: the classification line and then
`formatKey ++ ": (varint) v OR v"`, the value and its `uint64` cast; so does a
buffer that is one canonically encoded varint field. -/
theorem varint_show_all_two_lines (R : Render) (showOffsets : Bool) (fuel : Nat)
    (offset depth : Int) (pos : Nat) (rest r1 r2 : List UInt8) (i v n : Nat) (a : List String)
    (h : readUvarint rest = .ok (i, r1)) (h0 : i ≠ 0) (ht : i &&& 0x03 = 0)
    (hk : i >>> 3 ≤ 1024) (h2 : readUvarint r1 = .ok (v, r2))
    (f : Nat) (hf1 : 1 ≤ f) (hf2 : f ≤ 1024) :
    decodeLoop R true showOffsets (fuel + 1) offset depth pos rest n a
        = decodeLoop R true showOffsets fuel offset depth (pos + (rest.length - r2.length)) r2
            (n + 1)
            (a ++
              [if 1400000000000 < v ∧ v < 1500000000000 then
                  formatKey (i >>> 3) (wrapInt64 ((pos : Int) + offset)) showOffsets
                    ++ ": (varint, microseconds) " ++ R.unixTime ((v / 1000 : Nat) : Int)
                else if 1400000000 < v ∧ v < 1500000000 then
                  formatKey (i >>> 3) (wrapInt64 ((pos : Int) + offset)) showOffsets
                    ++ ": (varint, milliseconds) " ++ R.unixTime (v : Int)
                else
                  formatKey (i >>> 3) (wrapInt64 ((pos : Int) + offset)) showOffsets
                    ++ ": (varint) " ++ toString v,
               formatKey (i >>> 3) (wrapInt64 ((pos : Int) + offset)) showOffsets
                 ++ ": (varint) " ++ toString v ++ " OR " ++ toString (wrapUint64 v)]) ∧
      decode R (putUvarint (f <<< 3) ++ putUvarint v) offset depth true showOffsets
        = some ⟨1,
            [if 1400000000000 < v ∧ v < 1500000000000 then
                formatKey f (wrapInt64 offset) showOffsets
                  ++ ": (varint, microseconds) " ++ R.unixTime ((v / 1000 : Nat) : Int)
              else if 1400000000 < v ∧ v < 1500000000 then
                formatKey f (wrapInt64 offset) showOffsets
                  ++ ": (varint, milliseconds) " ++ R.unixTime (v : Int)
              else
                formatKey f (wrapInt64 offset) showOffsets ++ ": (varint) " ++ toString v,
             formatKey f (wrapInt64 offset) showOffsets
               ++ ": (varint) " ++ toString v ++ " OR " ++ toString (wrapUint64 v)],
            none⟩ := by
  have hv : v < 2 ^ 64 := readUvarint_lt h2
  have hw : wrapUint64 v = v := Nat.mod_eq_of_lt hv
  have hk' : ¬ (1024 < i >>> 3) := by omega
  constructor
  · rw [hw, ← varintLines_showAll R _ v hv]
    simp [decodeLoop, h, h0, hk', ht, h2]
  · have hs := step_varint R true showOffsets offset f v [] hf1 hf2 hv
    rw [List.append_nil] at hs
    obtain ⟨r, e1, e2⟩ := decode_of_step_flat depth hs
    rw [decode_nil] at e1
    cases e1
    rw [e2, hw, varintLines_showAll R _ v hv]
    simp

/-- C14 at field 1 with the value 1450000000 (the window of seconds) at
offset 0. -/
theorem varint_show_all_two_lines_witness :
    decodeLoop Render.sample true false (7 + 1) 0 0 0 [0x08, 0x80, 0xFD, 0xB4, 0xB3, 0x05] 0 []
        = decodeLoop Render.sample true false 7 0 0 (0 + (6 - 0)) [] (0 + 1)
            ([] ++ ["1: (varint, milliseconds) unix(1450000000)",
              "1: (varint) 1450000000 OR 1450000000"]) ∧
      decode Render.sample (putUvarint (1 <<< 3) ++ putUvarint 1450000000) 0 0 true false
        = some ⟨1, ["1: (varint, milliseconds) unix(1450000000)",
            "1: (varint) 1450000000 OR 1450000000"], none⟩ :=
  varint_show_all_two_lines Render.sample false 7 0 0 0 [0x08, 0x80, 0xFD, 0xB4, 0xB3, 0x05]
    [0x80, 0xFD, 0xB4, 0xB3, 0x05] [] 8 1450000000 0 [] rfl (by decide) (by decide) (by decide)
    rfl 1 (by decide) (by decide)

/-- C15 fails on the code: the case `uint64(v) == v` compares a `uint64` with
itself and always holds, so the case `!showAll` with the `N OR M` line is never
reached.  With `showAll = false` field 1 with the value `2^64 - 1`, and with
`2^63`, is rendered as a plain `(varint)` line. -/
theorem varint_or_line_unreachable :
    decode Render.sample
        [0x08, 0xFF, 0xFF, 0xFF, 0xFF, 0xFF, 0xFF, 0xFF, 0xFF, 0xFF, 0x01] 0 0 false false
        = some ⟨1, ["1: (varint) 18446744073709551615"], none⟩ ∧
      decode Render.sample
        [0x08, 0x80, 0x80, 0x80, 0x80, 0x80, 0x80, 0x80, 0x80, 0x80, 0x01] 0 0 false false
        = some ⟨1, ["1: (varint) 9223372036854775808"], none⟩ := by
  decide

/-- C16 (amended): with `showOffsets = true` the key is `<field_number> @ <offset>`
and with `showOffsets = false` it is `<field_number>`; for a varint field and for
a fixed64 field at reader position `pos` the offset is the one recorded at loop
start, `pos + offset` as an `int64`, the place of the first byte of the tag; for a
length-delimited field it is the one recorded again after the length was read,
the place of the first byte of the payload. -/
theorem key_offsets (R : Render) (showAll showOffsets : Bool) (fuel : Nat)
    (offset depth : Int) (pos : Nat) (rest r1 : List UInt8) (i n : Nat) (a : List String)
    (h : readUvarint rest = .ok (i, r1)) (h0 : i ≠ 0) (hk : i >>> 3 ≤ 1024) :
    (∀ (k : Nat) (o : Int), formatKey k o true = toString k ++ " @ " ++ toString o ∧
        formatKey k o false = toString k) ∧
      (-2 ^ 63 ≤ (pos : Int) + offset → (pos : Int) + offset < 2 ^ 63 →
        wrapInt64 ((pos : Int) + offset) = (pos : Int) + offset) ∧
      (i &&& 0x03 = 0 → ∀ v r2, readUvarint r1 = .ok (v, r2) →
        decodeLoop R showAll showOffsets (fuel + 1) offset depth pos rest n a
          = decodeLoop R showAll showOffsets fuel offset depth
              (pos + (rest.length - r2.length)) r2 (n + 1)
              (a ++ varintLines R
                (formatKey (i >>> 3) (wrapInt64 ((pos : Int) + offset)) showOffsets) v showAll)) ∧
      (i &&& 0x03 = 1 → r1 ≠ [] →
        decodeLoop R showAll showOffsets (fuel + 1) offset depth pos rest n a
          = decodeLoop R showAll showOffsets fuel offset depth
              (pos + (rest.length - (r1.drop 8).length)) (r1.drop 8) (n + 1)
              (a ++ fixedLines
                (formatKey (i >>> 3) (wrapInt64 ((pos : Int) + offset)) showOffsets)
                (closest64 R (readInto 8 r1)) (all64 R (readInto 8 r1)) showAll)) ∧
      (i &&& 0x03 = 2 → ∀ l r2 m, readUvarint r1 = .ok (l, r2) → l ≤ 32768 → l ≤ r2.length →
        decodeLoop R showAll showOffsets fuel
            (wrapInt64 (((pos + (rest.length - r2.length) : Nat) : Int) + offset)) (depth + 1) 0
            (r2.take l) 0 [] = some m →
        decodeLoop R showAll showOffsets (fuel + 1) offset depth pos rest n a
          = decodeLoop R showAll showOffsets fuel offset depth
              (pos + (rest.length - (r2.drop l).length)) (r2.drop l) (n + 1)
              (a ++ bytesLines R
                (formatKey (i >>> 3)
                  (wrapInt64 (((pos + (rest.length - r2.length) : Nat) : Int) + offset))
                  showOffsets)
                (r2.take l) m)) := by
  have hk' : ¬ (1024 < i >>> 3) := by omega
  refine ⟨fun k o => ⟨rfl, rfl⟩, fun h1 h2 => wrapInt64_of_range h1 h2, ?_, ?_, ?_⟩
  · intro ht v r2 h2
    simp [decodeLoop, h, h0, hk', ht, h2]
  · intro ht hne
    simp [decodeLoop, h, h0, hk', ht, hne]
  · intro ht l r2 m h2 hl hlen hm
    have hl' : ¬ (32768 < l) := by omega
    have hlen' : ¬ (r2.length < l) := by omega
    simp only [decodeLoop, h, h0, hk', ht, h2, hl', hlen', hm, if_false, Nat.not_lt_zero,
      OfNat.ofNat_ne_zero, OfNat.ofNat_ne_one, gt_iff_lt, Nat.reduceMul]
    simp

/-- C16 (amended) at a length-delimited field 1 with payload `08 01`, met at
position 2 of a buffer decoded from base offset 10: the key shows 14, the place
of the payload, not 12, the place of the tag. -/
theorem key_offsets_witness :
    decodeLoop Render.sample false true (5 + 1) 10 0 2 [0x0A, 0x02, 0x08, 0x01] 1
        ["1 @ 10: (varint) 1"]
      = decodeLoop Render.sample false true 5 10 0 (2 + (4 - 0)) [] (1 + 1)
          (["1 @ 10: (varint) 1"] ++ ["1 @ 14: \x7b", "  1 @ 14: (varint) 1", "\x7d"]) :=
  (key_offsets Render.sample false true 5 10 0 2 [0x0A, 0x02, 0x08, 0x01] [0x02, 0x08, 0x01] 10
    1 ["1 @ 10: (varint) 1"] rfl (by decide) (by decide)).2.2.2.2 (by decide) 2 [0x08, 0x01]
    ⟨1, ["1 @ 14: (varint) 1"], none⟩ rfl (by decide) (by decide) (by decide)

/-- C16 as stated fails for a length-delimited field: in the buffer
`08 01 0A 02 08 01` decoded from base offset 10 with offsets shown, the tag of
the second field is at index 2, so the claim gives the key `1 @ 12`; `decode`
shows `1 @ 14`, the offset of the payload. -/
theorem key_offset_of_bytes_field_counterexample :
    decode Render.sample [0x08, 0x01, 0x0A, 0x02, 0x08, 0x01] 10 0 false true
        = some ⟨2, ["1 @ 10: (varint) 1", "1 @ 14: \x7b", "  1 @ 14: (varint) 1", "\x7d"], none⟩ ∧
      formatKey 1 (10 + 2) true = "1 @ 12" := by
  decide

/-- C17: `parseBuffer` returns the two header lines `decoded <n> fields` and the
empty line followed by the lines of `decode(d, 0, 0, ..)`, and no error, when
`decode` returns a count above 0 and no error; in every other case it returns no
lines and the error of `decode`, which is no error for the empty buffer. -/
theorem parseBuffer_all_or_nothing (R : Render) (d : List UInt8) (showAll showOffsets : Bool) :
    ∃ r, decode R d 0 0 showAll showOffsets = some r ∧
      parseBuffer R d showAll showOffsets
        = some (if 0 < r.n ∧ r.err = none then
            (some (["decoded " ++ toString r.n ++ " fields", ""] ++ r.lines), none)
          else (none, r.err)) ∧
      (r.err ≠ none → parseBuffer R d showAll showOffsets = some (none, r.err)) ∧
      (r.n = 0 → parseBuffer R d showAll showOffsets = some (none, r.err)) ∧
      parseBuffer R [] showAll showOffsets = some (none, none) ∧
      parseBuffer Render.sample [0x08, 0x01, 0x00] false false = some (none, some .tagWasZero) ∧
      parseBuffer Render.sample [0x08, 0x01] false false
        = some (some ["decoded 1 fields", "", "1: (varint) 1"], none) := by
  obtain ⟨r, hr⟩ := decode_total R d 0 0 showAll showOffsets
  refine ⟨r, hr, ?_, ?_, ?_, ?_, by decide, by decide⟩
  · unfold parseBuffer
    rw [hr]
    simp only []
    split_ifs <;> rfl
  · intro he
    unfold parseBuffer
    rw [hr]
    simp [he]
  · intro hn
    unfold parseBuffer
    rw [hr]
    simp [hn]
  · unfold parseBuffer
    rw [decode_nil]
    simp

/-- C18: `decode` returns on every input, and with any fuel above the number of
bytes the loop returns the same result; the payload handed to a recursive
invocation is shorter by at least two bytes, the tag and the length, than what
the invoking loop had left; and the number of brace blocks around any line of
the output is at most the number of bytes of the input. -/
theorem decode_terminates (R : Render) (showAll showOffsets : Bool) (input : List UInt8)
    (offset depth : Int) :
    (∃ r, decode R input offset depth showAll showOffsets = some r) ∧
      (∀ fuel, input.length < fuel →
        decodeLoop R showAll showOffsets fuel offset depth 0 input 0 []
          = decode R input offset depth showAll showOffsets) ∧
      (∀ (rest r1 r2 : List UInt8) (i l : Nat), readUvarint rest = .ok (i, r1) →
        readUvarint r1 = .ok (l, r2) → (r2.take l).length + 2 ≤ rest.length) ∧
      (∃ A r, annotLoop R showAll showOffsets (input.length + 1) offset input = some (A, r.err) ∧
        decode R input offset depth showAll showOffsets = some r ∧
        r.lines = A.map Prod.snd ∧ ∀ x ∈ A, x.1 ≤ input.length) := by
  refine ⟨decode_total R input offset depth showAll showOffsets, ?_, ?_, ?_⟩
  · intro fuel hf
    obtain ⟨r, h1, h2⟩ := decodeLoop_eq_decode R showAll showOffsets fuel offset depth 0 0 []
      input depth hf
    simp only [Nat.cast_zero, zero_add] at h1
    rw [h1, h2, after_zero_nil]
  · intro rest r1 r2 i l h1 h2
    have l1 := readUvarint_length h1
    have l2 := readUvarint_length h2
    simp only [List.length_take]
    omega
  · obtain ⟨A, r, h1, h2, h3, h4⟩ := annotLoop_spec R showAll showOffsets input.length input
      (Nat.le_refl _) (input.length + 1) offset (Nat.lt_succ_self _)
    refine ⟨A, r, h1, ?_, h3, fun x hx => ?_⟩
    · rw [decode_depth R input offset depth 0, h2]
    · have := h4 x hx
      omega

/-- C19 fails on the code, by the short read of the fixed64 case (the defect of
C11): `09 01` decodes without error to one field, `08 01` decodes at offset 2 to
one field, and `09 01 08 01` decodes to one field, not two, because the fixed64
case takes the three bytes that follow the tag as its payload. -/
theorem concat_not_compositional :
    decode Render.sample [0x09, 0x01] 0 0 false false
        = some ⟨1, ["1: (int64le) 1"], none⟩ ∧
      decode Render.sample [0x08, 0x01] (0 + 2) 0 false false
        = some ⟨1, ["1: (varint) 1"], none⟩ ∧
      decode Render.sample ([0x09, 0x01] ++ [0x08, 0x01]) 0 0 false false
        = some ⟨1, ["1: (int64le) 67585"], none⟩ := by
  decide

/-- C20: for every 8-byte payload the label picked by the fixed64 candidate tests
is `doublebe`, `doublele`, `int64be`, `int64le` or `none`, never `uint64`: the
unsigned reading of either byte order is, as a `float64`, not below the signed
reading of the same order in absolute value, which comes earlier and exceeds
`0.01` whenever the unsigned one does; and the label is `none` only when all
eight bytes are zero. -/
theorem uint64_never_wins (R : Render) (v : List UInt8) (hv : v.length = 8) :
    (∀ (k : Nat) (offset depth : Int) (showOffsets : Bool), k ≤ 1024 →
        decode R (putUvarint (k <<< 3 ||| 1) ++ v) offset depth false showOffsets
          = some ⟨1, [formatKey k (wrapInt64 offset) showOffsets ++ ": ("
              ++ (closest64 R v).name ++ ") " ++ (closest64 R v).text], none⟩) ∧
      (closest64 R v).name ∈ ["doublebe", "doublele", "int64be", "int64le", "none"] ∧
      (closest64 R v).name ≠ "uint64" ∧
      ((closest64 R v).name = "none" → ∀ b ∈ v, b.toNat = 0) ∧
      Mag.lt (absOfInt (beUint v : Int)) (absOfInt (toInt64 (beUint v))) = false ∧
      Mag.lt (absOfInt (leUint v : Int)) (absOfInt (toInt64 (leUint v))) = false := by
  obtain ⟨hbe, hle, hz⟩ := eight_bytes_facts v hv
  have key : (closest64 R v).name ∈ ["doublebe", "doublele", "int64be", "int64le", "none"] ∧
      ((closest64 R v).name = "none" → ∀ b ∈ v, b.toNat = 0) := by
    rw [closest64_eq_pick]
    rcases pick_spec (readings64 R v) Closest.init with ⟨h1, h2⟩ | ⟨i, r, hr, h1, h2, h3, h4, h5⟩
    · rw [h1]
      refine ⟨by simp [Closest.init], fun _ => ?_⟩
      apply eight_bytes_zero v hv
      by_contra hne
      have hmem : (⟨absOfInt (toInt64 (beUint v)), "int64be", toString (toInt64 (beUint v))⟩ :
          Reading) ∈ readings64 R v := by simp [readings64]
      exact h2 _ hmem (int64_reading_in_range _ hne hbe)
    · rw [h1]
      simp only
      have hcases : i = 0 ∨ i = 1 ∨ i = 2 ∨ i = 3 ∨ i = 4 ∨ i = 5 ∨ 6 ≤ i := by omega
      rcases hcases with rfl | rfl | rfl | rfl | rfl | rfl | h6
      · simp only [readings64, List.getElem?_cons_zero, Option.some.injEq] at hr
        subst hr
        exact ⟨by simp, fun h => by simp at h⟩
      · simp only [readings64, List.getElem?_cons_succ, List.getElem?_cons_zero,
          Option.some.injEq] at hr
        subst hr
        exact ⟨by simp, fun h => by simp at h⟩
      · simp only [readings64, List.getElem?_cons_succ, List.getElem?_cons_zero,
          Option.some.injEq] at hr
        subst hr
        exact ⟨by simp, fun h => by simp at h⟩
      · simp only [readings64, List.getElem?_cons_succ, List.getElem?_cons_zero,
          Option.some.injEq] at hr
        subst hr
        exact ⟨by simp, fun h => by simp at h⟩
      · exfalso
        simp only [readings64, List.getElem?_cons_succ, List.getElem?_cons_zero,
          Option.some.injEq] at hr
        subst hr
        have hne : beUint v ≠ 0 := by
          intro h0
          simp only [Reading.isAbove, h0] at h2
          rw [absOfInt_zero_not_above] at h2
          cases h2
        have hq := h5 ⟨absOfInt (toInt64 (beUint v)), "int64be", toString (toInt64 (beUint v))⟩
          (by simp [readings64]) (int64_reading_in_range _ hne hbe).1
        simp only at hq
        rw [absOfInt_unsigned_not_lt _ hbe] at hq
        cases hq
      · exfalso
        simp only [readings64, List.getElem?_cons_succ, List.getElem?_cons_zero,
          Option.some.injEq] at hr
        subst hr
        have hne : leUint v ≠ 0 := by
          intro h0
          simp only [Reading.isAbove, h0] at h2
          rw [absOfInt_zero_not_above] at h2
          cases h2
        have hq := h5 ⟨absOfInt (toInt64 (leUint v)), "int64le", toString (toInt64 (leUint v))⟩
          (by simp [readings64]) (int64_reading_in_range _ hne hle).1
        simp only at hq
        rw [absOfInt_unsigned_not_lt _ hle] at hq
        cases hq
      · exfalso
        have hlen : (readings64 R v).length = 6 := by simp [readings64]
        have : (readings64 R v)[i]? = none := List.getElem?_eq_none (by omega)
        rw [this] at hr
        cases hr
  refine ⟨?_, key.1, ?_, key.2, absOfInt_unsigned_not_lt _ hbe,
    absOfInt_unsigned_not_lt _ hle⟩
  · intro k offset depth showOffsets hk
    rw [decode_single_fixed64 R false showOffsets k v offset depth hk hv]
    simp [fixedLines]
  intro hu
  have := key.1
  rw [hu] at this
  simp at this

/-- C20 at the payload `FF FF FF FF FF FF FF FF`, where both unsigned readings
are `2^64 - 1` and both signed readings are `-1`. -/
theorem uint64_never_wins_witness :
    (∀ (k : Nat) (offset depth : Int) (showOffsets : Bool), k ≤ 1024 →
        decode Render.sample
            (putUvarint (k <<< 3 ||| 1) ++ [0xFF, 0xFF, 0xFF, 0xFF, 0xFF, 0xFF, 0xFF, 0xFF])
            offset depth false showOffsets
          = some ⟨1, [formatKey k (wrapInt64 offset) showOffsets ++ ": ("
              ++ (closest64 Render.sample [0xFF, 0xFF, 0xFF, 0xFF, 0xFF, 0xFF, 0xFF, 0xFF]).name
              ++ ") "
              ++ (closest64 Render.sample [0xFF, 0xFF, 0xFF, 0xFF, 0xFF, 0xFF, 0xFF, 0xFF]).text],
              none⟩) ∧
      (closest64 Render.sample [0xFF, 0xFF, 0xFF, 0xFF, 0xFF, 0xFF, 0xFF, 0xFF]).name
        ∈ ["doublebe", "doublele", "int64be", "int64le", "none"] ∧
      (closest64 Render.sample [0xFF, 0xFF, 0xFF, 0xFF, 0xFF, 0xFF, 0xFF, 0xFF]).name ≠ "uint64" ∧
      ((closest64 Render.sample [0xFF, 0xFF, 0xFF, 0xFF, 0xFF, 0xFF, 0xFF, 0xFF]).name = "none" →
        ∀ b ∈ ([0xFF, 0xFF, 0xFF, 0xFF, 0xFF, 0xFF, 0xFF, 0xFF] : List UInt8), b.toNat = 0) ∧
      Mag.lt (absOfInt (beUint [0xFF, 0xFF, 0xFF, 0xFF, 0xFF, 0xFF, 0xFF, 0xFF] : Int))
        (absOfInt (toInt64 (beUint [0xFF, 0xFF, 0xFF, 0xFF, 0xFF, 0xFF, 0xFF, 0xFF]))) = false ∧
      Mag.lt (absOfInt (leUint [0xFF, 0xFF, 0xFF, 0xFF, 0xFF, 0xFF, 0xFF, 0xFF] : Int))
        (absOfInt (toInt64 (leUint [0xFF, 0xFF, 0xFF, 0xFF, 0xFF, 0xFF, 0xFF, 0xFF]))) = false :=
  uint64_never_wins Render.sample [0xFF, 0xFF, 0xFF, 0xFF, 0xFF, 0xFF, 0xFF, 0xFF] (by decide)

end Protofudger
